import Mathlib

/-!
Verification development for the enhanced search engine
(`src/enhanced-search.ts` of the craft_prompt repository).

The engine is embedded shallowly:

* JavaScript numbers carrying relevance scores are modelled as exact
  rationals (`ℚ`); the weighted-sum formulas of the source are algebraic
  identities at this level of abstraction.
* ISO-8601 timestamp strings produced by `Date.toISOString` are modelled
  as their underlying epoch-millisecond values (`Nat`); the ISO encoding
  is order- and equality-preserving, which is all the engine observes.
* `Array.prototype.sort` with a consistent comparator is guaranteed
  (ES2019) to produce a stable sort; a stable sort for a total
  transitive comparator is unique, so it is modelled by a structural
  insertion sort `jsSort`.
* JavaScript `Map` objects preserve insertion order; they are modelled
  by association lists where `set` on an existing key replaces in place
  and otherwise appends.
* provider collaborators (embedding, vector index, rerank, text
  generation) and the vault are modelled by an `Env` record of fallible
  functions; `Promise` rejection is `Except.error`.
-/

namespace ES

/-- jsSplitWsAux implements `String.prototype.split(/\s+/)`: maximal
whitespace runs separate tokens; leading or trailing whitespace yields an
empty leading or trailing token.  The fuel argument only bounds recursion
and is always called with enough fuel to consume the whole string. -/
def jsSplitWsAux : Nat → List Char → List Char → List String
  | _, [], acc => [String.mk acc.reverse]
  | 0, _, acc => [String.mk acc.reverse]
  | fuel+1, c :: rest, acc =>
    if c.isWhitespace then
      String.mk acc.reverse :: jsSplitWsAux fuel (rest.dropWhile Char.isWhitespace) []
    else jsSplitWsAux fuel rest (c :: acc)

/-- jsSplitWs is `s.split(/\s+/)` from the source. -/
def jsSplitWs (s : String) : List String :=
  jsSplitWsAux s.data.length s.data []

/-- jsToLower is `s.toLowerCase()` (ASCII case folding). -/
def jsToLower (s : String) : String :=
  String.mk (s.data.map Char.toLower)

/-- trimData drops whitespace at both ends of a character list. -/
def trimData (l : List Char) : List Char :=
  ((l.dropWhile Char.isWhitespace).reverse.dropWhile Char.isWhitespace).reverse

/-- jsTrim is `s.trim()` from the source. -/
def jsTrim (s : String) : String := String.mk (trimData s.data)

/-- countOccsAux counts non-overlapping occurrences of `w` in the string,
as `(s.match(new RegExp(w, 'g')) || []).length` does for a literal
pattern `w`: scanning left to right, each match consumes its characters.
An empty pattern matches once at every position (length + 1 total).  The
fuel argument only bounds recursion. -/
def countOccsAux (w : List Char) : Nat → List Char → Nat
  | _, [] => if w.isEmpty then 1 else 0
  | 0, _ => 0
  | fuel+1, c :: rest =>
    if w.isEmpty then 1 + countOccsAux w fuel rest
    else if w.isPrefixOf (c :: rest) then
      1 + countOccsAux w fuel (List.drop (w.length - 1) rest)
    else countOccsAux w fuel rest

/-- countOccs counts occurrences of word `w` in string `s` (both given as
character lists, already lower-cased by the callers in the source). -/
def countOccs (w s : List Char) : Nat := countOccsAux w s.length s

/-- isWordChar is the regex `\w` class: ASCII letters, digits, underscore. -/
def isWordChar (c : Char) : Bool := c.isAlphanum || c = '_'

/-- wbAt decides whether regex `\b` (a word boundary) holds at offset `i`
of the character list: exactly one side of the position is a word
character, with positions outside the string counting as non-word. -/
def wbAt (s : List Char) (i : Nat) : Bool :=
  let left := decide (i ≠ 0) && isWordChar (s.getD (i-1) ' ')
  let right := isWordChar (s.getD i ' ')
  left != right

/-- matchAt decides whether the case-folded pattern `w` matches the
regex `\bw\b` of `findWordContext` at offset `i` of `s`. -/
def matchAt (s w : List Char) (i : Nat) : Bool :=
  decide (i + w.length ≤ s.length) &&
  ((s.drop i).take w.length).map Char.toLower == w &&
  wbAt s i && wbAt s (i + w.length)

/-- windowAt extracts the trimmed context window of `findWordContext`:
`content.substring(max(0, idx - ctx), min(len, idx + wlen + ctx)).trim()`. -/
def windowAt (s : List Char) (i wlen ctx : Nat) : String :=
  let start := i - ctx
  let stop := min s.length (i + wlen + ctx)
  String.mk (trimData ((s.drop start).take (stop - start)))

/-- fwcAux is the `regex.exec` loop of `findWordContext`: scan for up to
two non-overlapping case-insensitive `\bword\b` matches, recording the
trimmed ±`ctx` character window around each.  A zero-length pattern does
not advance `lastIndex`, so the source loop records the same first match
twice before its `matches.length < 2` guard stops it.  The fuel argument
only bounds recursion. -/
def fwcAux (s w : List Char) (ctx : Nat) : Nat → Nat → List String → List String
  | 0, _, acc => acc.reverse
  | fuel+1, i, acc =>
    if acc.length ≥ 2 then acc.reverse
    else if i > s.length then acc.reverse
    else if w.isEmpty then
      if wbAt s i then
        let c := windowAt s i 0 ctx
        (c :: c :: acc).reverse
      else fwcAux s w ctx fuel (i+1) acc
    else if matchAt s w i then
      fwcAux s w ctx fuel (i + w.length) (windowAt s i w.length ctx :: acc)
    else fwcAux s w ctx fuel (i+1) acc

/-- findWordContext models `findWordContext(content, word, contextLength)`
from the source: up to two ±50-character context snippets around
word-boundary, case-insensitive matches of `word` in `content`. -/
def findWordContext (content word : String) (contextLength : Nat := 50) : List String :=
  fwcAux content.data (word.data.map Char.toLower) contextLength
    (content.data.length + 2) 0 []

/-- extractHighlights models `extractHighlights(content, query)`: context
snippets of every whitespace-separated query word, capped at 3. -/
def extractHighlights (content query : String) : List String :=
  (((jsSplitWs (jsToLower query)).map (fun w => findWordContext content w)).flatten).take 3

/-- stripHeadingMarks is `h.replace(/^#+\s*/, '')` on a line already known
to start with a hash: the leading run of hashes and the following
whitespace run are removed. -/
def stripHeadingMarks (s : String) : String :=
  if s.data.head? = some '#' then
    String.mk ((s.data.dropWhile (· = '#')).dropWhile Char.isWhitespace)
  else s

/-- splitOnNlAux is the worker for `content.split('\n')`.  The fuel
argument only bounds recursion. -/
def splitOnNlAux : Nat → List Char → List Char → List String
  | _, [], acc => [String.mk acc.reverse]
  | 0, _, acc => [String.mk acc.reverse]
  | fuel+1, c :: rest, acc =>
    if c = '\n' then String.mk acc.reverse :: splitOnNlAux fuel rest []
    else splitOnNlAux fuel rest (c :: acc)

/-- splitOnNl is `content.split('\n')` (single-character separator, empty
parts preserved). -/
def splitOnNl (s : String) : List String :=
  splitOnNlAux s.data.length s.data []

/-- extractTitle models `extractTitle(content)`: the first heading line
with its hash marks stripped, or the trimmed first 50 characters of the
content followed by an ellipsis. -/
def extractTitle (content : String) : String :=
  match (splitOnNl content).find? (fun line => line.startsWith "#") with
  | some h => stripHeadingMarks h
  | none => jsTrim (String.mk (content.data.take 50)) ++ "..."

/-- stripHashRuns is the global replace `content.replace(/#+\s*/g, '')`:
every run of hashes together with the following whitespace run is
deleted.  The fuel argument only bounds recursion. -/
def stripHashRuns : Nat → List Char → List Char
  | _, [] => []
  | 0, l => l
  | fuel+1, c :: rest =>
    if c = '#' then stripHashRuns fuel ((rest.dropWhile (· = '#')).dropWhile Char.isWhitespace)
    else c :: stripHashRuns fuel rest

/-- collapseNewlines is the global replace `.replace(/\n+/g, ' ')`: every
run of newline characters becomes a single space.  The fuel argument only
bounds recursion. -/
def collapseNewlines : Nat → List Char → List Char
  | _, [] => []
  | 0, l => l
  | fuel+1, c :: rest =>
    if c = '\n' then ' ' :: collapseNewlines fuel (rest.dropWhile (· = '\n'))
    else c :: collapseNewlines fuel rest

/-- extractSummary models `extractSummary(content, maxLength = 200)`. -/
def extractSummary (content : String) (maxLength : Nat := 200) : String :=
  let cleaned := jsTrim (String.mk (collapseNewlines content.data.length
    (stripHashRuns content.data.length content.data)))
  if cleaned.data.length > maxLength then String.mk (cleaned.data.take maxLength) ++ "..."
  else cleaned

/-- lexCompare is the sign of `a.localeCompare(b)` modelled as code-point
lexicographic comparison. -/
def lexCompare : List Char → List Char → Int
  | [], [] => 0
  | [], _ :: _ => -1
  | _ :: _, [] => 1
  | a :: as, b :: bs => if a < b then -1 else if b < a then 1 else lexCompare as bs

/-- insertBy inserts `x` into `l` after every element `y` with `le y x`;
folding it over a list yields the unique stable sort for a total,
transitive comparator, which is what `Array.prototype.sort` guarantees. -/
def insertBy (le : α → α → Bool) (x : α) : List α → List α
  | [] => [x]
  | y :: ys => if le y x then y :: insertBy le x ys else x :: y :: ys

/-- jsSort models `Array.prototype.sort(comparator)` for a consistent
comparator `c`, with `le a b` standing for `c(a, b) <= 0`. -/
def jsSort (le : α → α → Bool) (l : List α) : List α :=
  l.foldl (fun acc x => insertBy le x acc) []

/-- SearchType is the `searchType` selector of `SearchOptions`. -/
inductive SearchType where
  | semantic | keyword | hybrid | ai_enhanced
deriving DecidableEq, Repr

/-- SortBy is the `sortBy` selector of `SearchOptions`. -/
inductive SortBy where
  | relevance | date | title | size
deriving DecidableEq, Repr

/-- SortOrder is the `sortOrder` selector of `SearchOptions`. -/
inductive SortOrder where
  | asc | desc
deriving DecidableEq, Repr

/-- DateRange is the optional `dateRange` of `SearchOptions`; the two
`Date` bounds are modelled by epoch milliseconds. -/
structure DateRange where
  fromTime : Nat
  toTime : Nat
deriving DecidableEq, Repr

/-- TFile is the vault file handle: path, basename, extension and the
`stat` timestamps (epoch milliseconds). -/
structure TFile where
  path : String
  basename : String
  extension : String
  ctime : Nat
  mtime : Nat
deriving DecidableEq, Repr

/-- SearchMetadata is the `metadata` record of `SearchResult`.  The
`created` and `modified` ISO strings are modelled by their epoch values. -/
structure SearchMetadata where
  type : String
  source : String
  path : Option String := none
  tags : Option (List String) := none
  created : Option Nat := none
  modified : Option Nat := none
  wordCount : Option Nat := none
  highlights : Option (List String) := none
deriving DecidableEq, Repr

/-- SearchResult is one retrieved unit, scores as exact rationals. -/
structure SearchResult where
  id : String
  title : String
  content : String
  file : Option TFile := none
  score : ℚ
  rerankScore : Option ℚ := none
  finalScore : Option ℚ := none
  metadata : SearchMetadata
deriving DecidableEq, Repr

/-- SearchOptions fully describes one query request. -/
structure SearchOptions where
  query : String
  searchType : SearchType
  maxResults : Nat
  useRerank : Bool
  rerankThreshold : ℚ
  includeContent : Bool
  fileTypes : List String
  dateRange : Option DateRange := none
  tags : Option (List String) := none
  folders : Option (List String) := none
  sortBy : SortBy
  sortOrder : SortOrder
deriving DecidableEq, Repr

/-- RagHit is one neighbor returned by `ragIntegrator.searchSimilar`. -/
structure RagHit where
  text : String
  score : ℚ
deriving DecidableEq, Repr

/-- RerankItem is one `(index, relevance_score)` pair of a rerank reply. -/
structure RerankItem where
  index : Nat
  relevance_score : ℚ
deriving DecidableEq, Repr

/-- RerankResponse is the reply of `voyageAI.rerankOnly`. -/
structure RerankResponse where
  data : List RerankItem
deriving DecidableEq, Repr

/-- Env bundles the external collaborators the engine calls: the
embedding provider, the vector index, the vault, the rerank provider and
the text-generation provider.  Fallible calls return `Except`, with
`Except.error` standing for promise rejection. -/
structure Env where
  embeddings : Bool
  embedQuery : String → Except String (List ℚ)
  searchSimilar : List ℚ → Nat → Except String (List RagHit)
  getMarkdownFiles : Except String (List TFile)
  vaultRead : TFile → Except String String
  voyageReady : Bool
  rerankOnly : String → List String → Nat → Except String (Option RerankResponse)
  vercelReady : Bool
  generateQuestions : String → Nat → Except String (List String)
  generateText : String → String → Except String String

/-- jsOr is the JavaScript expression `a || b` for an optional number
`a`: the fallback is used when `a` is absent or zero (both falsy). -/
def jsOr (a : Option ℚ) (b : ℚ) : ℚ :=
  match a with
  | none => b
  | some v => if v = 0 then b else v

/-- finalOrScore is the comparator key `r.finalScore || r.score` used by
every descending re-sort in the source. -/
def finalOrScore (r : SearchResult) : ℚ := jsOr r.finalScore r.score

/-- sortByFinalDesc is `.sort((a, b) => (b.finalScore || b.score) -
(a.finalScore || a.score))`. -/
def sortByFinalDesc (l : List SearchResult) : List SearchResult :=
  jsSort (fun a b => decide (finalOrScore b ≤ finalOrScore a)) l

/-- semResultOf maps the neighbor at position `p.1` with payload `p.2`
to the node-typed result `semanticSearch` builds for it. -/
def semResultOf (options : SearchOptions) (p : Nat × RagHit) : SearchResult :=
  { id := "semantic_" ++ toString p.1
    title := extractTitle p.2.text
    content := p.2.text
    score := p.2.score
    metadata :=
      { type := "node"
        source := "rag"
        highlights := some (extractHighlights p.2.text options.query) } }

/-- semanticSearch models `semanticSearch(options)`: fail when no
embedding provider is configured, otherwise embed the query, fetch
`2 × maxResults` neighbors and map each to a node-typed result whose id
is `semantic_` followed by the neighbor position. -/
def semanticSearch (env : Env) (options : SearchOptions) :
    Except String (List SearchResult) :=
  if !env.embeddings then
    .error "Embeddings not available for semantic search"
  else
    match env.embedQuery options.query with
    | .error e => .error e
    | .ok queryEmbedding =>
      match env.searchSimilar queryEmbedding (options.maxResults * 2) with
      | .error e => .error e
      | .ok ragResults => .ok (ragResults.enum.map (semResultOf options))

/-- scoreFile is one iteration of the `keywordSearch` file loop: read the
file (an unreadable file is skipped), sum the per-word occurrence counts
in the lower-cased content, collect context highlights for each matching
word, and build a result when the total count is positive. -/
def scoreFile (env : Env) (options : SearchOptions) (queryWords : List String)
    (file : TFile) : Option SearchResult :=
  match env.vaultRead file with
  | .error _ => none
  | .ok content =>
    let contentLower := jsToLower content
    let scored := queryWords.foldl
      (fun (acc : Nat × List String) word =>
        let matchCount := countOccs word.data contentLower.data
        (acc.1 + matchCount,
         if matchCount > 0 then acc.2 ++ findWordContext content word else acc.2))
      (0, [])
    if scored.1 > 0 then
      some
        { id := "keyword_" ++ file.path
          title := file.basename
          content := if options.includeContent then content else extractSummary content
          file := some file
          score := (scored.1 : ℚ) / (queryWords.length : ℚ)
          metadata :=
            { type := "file"
              source := "vault"
              path := some file.path
              created := some file.ctime
              modified := some file.mtime
              wordCount := some (jsSplitWs content).length
              highlights := some (scored.2.take 3) } }
    else none

/-- keywordSearch models `keywordSearch(options)`: score every vault
file against the whitespace-split lower-cased query words and sort the
hits descending by score.  A failure of `getMarkdownFiles` rejects the
whole call; per-file read failures are absorbed by `scoreFile`. -/
def keywordSearch (env : Env) (options : SearchOptions) :
    Except String (List SearchResult) :=
  match env.getMarkdownFiles with
  | .error e => .error e
  | .ok files =>
    let queryWords := jsSplitWs (jsToLower options.query)
    .ok (jsSort (fun a b => decide (b.score ≤ a.score))
      (files.filterMap (scoreFile env options queryWords)))

/-- semWeight applies the semantic branch of the hybrid merge:
`finalScore = score * 0.7`. -/
def semWeight (r : SearchResult) : SearchResult :=
  { r with finalScore := some (r.score * (7/10)) }

/-- kwWeight applies the keyword-only branch of the hybrid merge:
`finalScore = score * 0.3`. -/
def kwWeight (r : SearchResult) : SearchResult :=
  { r with finalScore := some (r.score * (3/10)) }

/-- combineInto is the duplicate-id branch of the hybrid merge: the
finalScore of the existing entry (or its score when that is falsy) gains the
keyword score weighted by 0.3, and the two highlight lists are
concatenated and capped at 5. -/
def combineInto (existing r : SearchResult) : SearchResult :=
  { existing with
    finalScore := some (jsOr existing.finalScore existing.score + r.score * (3/10))
    metadata :=
      { existing.metadata with
        highlights := some
          (((existing.metadata.highlights.getD []) ++
            (r.metadata.highlights.getD [])).take 5) } }

/-- mapSetById is `Map.set` keyed by result id on an insertion-ordered
association: replace in place when the id is present, append otherwise. -/
def mapSetById (m : List SearchResult) (v : SearchResult) : List SearchResult :=
  if m.any (fun x => x.id = v.id) then
    m.map (fun x => if x.id = v.id then v else x)
  else m ++ [v]

/-- kwStep is one iteration of the keyword loop of the hybrid merge. -/
def kwStep (m : List SearchResult) (r : SearchResult) : List SearchResult :=
  match m.find? (fun x => decide (x.id = r.id)) with
  | some existing =>
    m.map (fun x => if x.id = r.id then combineInto existing r else x)
  | none => m ++ [kwWeight r]

/-- hybridMerge is the combine-and-deduplicate body of `hybridSearch`:
semantic results enter the map weighted by 0.7, keyword results are
merged in weighted by 0.3 and the insertion-ordered values are returned
(the caller sorts them). -/
def hybridMerge (semanticResults keywordResults : List SearchResult) :
    List SearchResult :=
  let m := semanticResults.foldl (fun m r => mapSetById m (semWeight r)) []
  keywordResults.foldl kwStep m

/-- hybridSearch models `hybridSearch(options)`: the semantic and
keyword sub-searches run under `Promise.all`, a semantic rejection is
caught and replaced by the empty list, a keyword rejection rejects the
whole call; the merged map values are sorted descending by
`finalScore || score`. -/
def hybridSearch (env : Env) (options : SearchOptions) :
    Except String (List SearchResult) :=
  match keywordSearch env options with
  | .error e => .error e
  | .ok keywordResults =>
    let semanticResults :=
      match semanticSearch env options with
      | .ok rs => rs
      | .error _ => []
    .ok (sortByFinalDesc (hybridMerge semanticResults keywordResults))

/-- takeDigitsAux consumes a leading run of decimal digits, returning the
accumulated value, the number of digits read and the rest. -/
def takeDigitsAux : List Char → Nat → Nat → Nat × Nat × List Char
  | [], v, n => (v, n, [])
  | c :: rest, v, n =>
    if c.isDigit then takeDigitsAux rest (v * 10 + (c.toNat - 48)) (n + 1)
    else (v, n, c :: rest)

/-- jsParseFloat models `parseFloat` on decimal inputs: optional leading
whitespace and sign, digits with an optional fractional part, and an
optional exponent (ignored when it has no digits, as `parseFloat` does);
`none` stands for `NaN`.  The special `Infinity` spellings, which a
relevance-scoring reply would not contain, are not modelled. -/
def jsParseFloat (s : String) : Option ℚ :=
  let l := s.data.dropWhile Char.isWhitespace
  let signed := l.head? = some '-'
  let l := if l.head? = some '-' ∨ l.head? = some '+' then l.tail else l
  let intPart := takeDigitsAux l 0 0
  let fracInput := intPart.2.2
  let fracPart :=
    if fracInput.head? = some '.' then takeDigitsAux fracInput.tail 0 0
    else (0, 0, fracInput)
  if intPart.2.1 + fracPart.2.1 = 0 then none
  else
    let mant : ℚ := (intPart.1 : ℚ) + (fracPart.1 : ℚ) / ((10 : ℚ) ^ fracPart.2.1)
    let expInput := fracPart.2.2
    let value :=
      match expInput with
      | 'e' :: r | 'E' :: r =>
        let eneg := r.head? = some '-'
        let r := if r.head? = some '-' ∨ r.head? = some '+' then r.tail else r
        let ep := takeDigitsAux r 0 0
        if ep.2.1 = 0 then mant
        else if eneg then mant / ((10 : ℚ) ^ ep.1) else mant * ((10 : ℚ) ^ ep.1)
      | _ => mant
    some (if signed then -value else value)

/-- dedupKey is `result.file?.path || result.title`: the path when a file
is attached and its path is truthy, the title otherwise. -/
def dedupKey (r : SearchResult) : String :=
  match r.file with
  | some f => if f.path = "" then r.title else f.path
  | none => r.title

/-- dedupStep is one iteration of `deduplicateResults`: keep whichever
duplicate of a key has the higher `finalScore || score`, first wins ties,
insertion order preserved. -/
def dedupStep (seen : List (String × SearchResult)) (r : SearchResult) :
    List (String × SearchResult) :=
  let key := dedupKey r
  match seen.find? (fun p => decide (p.1 = key)) with
  | some p =>
    if finalOrScore r > finalOrScore p.2 then
      seen.map (fun q => if q.1 = key then (key, r) else q)
    else seen
  | none => seen ++ [(key, r)]

/-- deduplicateResults models `deduplicateResults(results)`. -/
def deduplicateResults (results : List SearchResult) : List SearchResult :=
  (results.foldl dedupStep []).map (fun p => p.2)

/-- aiScoreOf is the per-result body of `analyzeResultsWithAI`: a failed
generation call keeps the result unchanged; otherwise the reply is parsed
as a float with the prior score as fallback (`parseFloat(..) || score`,
so an unparsable or zero reply falls back), and the new final score
blends prior and AI scores half and half. -/
def aiScoreOf (env : Env) (query : String) (r : SearchResult) : SearchResult :=
  match env.generateText query (String.mk (r.content.data.take 500)) with
  | .error _ => r
  | .ok reply =>
    let aiScore :=
      match jsParseFloat (jsTrim reply) with
      | some v => if v = 0 then r.score else v
      | none => r.score
    { r with finalScore := some (r.score * (1/2) + aiScore * (1/2)) }

/-- analyzeResultsWithAI models `analyzeResultsWithAI(query, results)`. -/
def analyzeResultsWithAI (env : Env) (query : String)
    (results : List SearchResult) : List SearchResult :=
  if !env.vercelReady || results.isEmpty then results
  else sortByFinalDesc (results.map (aiScoreOf env query))

/-- aiEnhancedSearch models `aiEnhancedSearch(options)`: fall back to
`hybridSearch` when the text-generation provider is not ready; otherwise
expand the query, run a hybrid search per variant, deduplicate and
re-score with the provider, falling back to a plain hybrid search when
any of the expansion steps rejects. -/
def aiEnhancedSearch (env : Env) (options : SearchOptions) :
    Except String (List SearchResult) :=
  if !env.vercelReady then hybridSearch env options
  else
    let attempt : Except String (List SearchResult) := do
      let expandedQueries ← env.generateQuestions ("Search query: " ++ options.query) 3
      let allResults ← (options.query :: expandedQueries).foldlM
        (fun acc q => do
          let rs ← hybridSearch env { options with query := q }
          return acc ++ rs) []
      let uniqueResults := deduplicateResults allResults
      return analyzeResultsWithAI env options.query uniqueResults
    match attempt with
    | .ok rs => .ok rs
    | .error _ => hybridSearch env options

/-- rerankBlend builds the reranked copy of one surviving candidate:
`rerankScore = relevance_score` and
`finalScore = score * 0.3 + relevance_score * 0.7`. -/
def rerankBlend (original : SearchResult) (item : RerankItem) : SearchResult :=
  { original with
    rerankScore := some item.relevance_score
    finalScore := some (original.score * (3/10) + item.relevance_score * (7/10)) }

/-- defaultResult is an arbitrary result used only as the default of a
guarded list index. -/
def defaultResult : SearchResult :=
  { id := "", title := "", content := "", score := 0, metadata := { type := "", source := "" } }

/-- rerankResults models `rerankResults(query, results, options)`: a
no-op when the provider is not ready or the input is empty; a provider
rejection or an empty reply returns the input unchanged; otherwise the
reply pairs at or above `rerankThreshold` are kept, blended against the
results they index and re-sorted descending.  A surviving pair whose
index is out of range makes the source dereference `undefined` inside the
`map`, which throws and is caught, returning the input unchanged. -/
def rerankResults (env : Env) (query : String) (results : List SearchResult)
    (options : SearchOptions) : List SearchResult :=
  if !env.voyageReady || results.isEmpty then results
  else
    match env.rerankOnly query (results.map (fun r => r.content)) options.maxResults with
    | .error _ => results
    | .ok none => results
    | .ok (some rerankResponse) =>
      let survivors := rerankResponse.data.filter
        (fun item => decide (item.relevance_score ≥ options.rerankThreshold))
      if survivors.all (fun item => decide (item.index < results.length)) then
        sortByFinalDesc (survivors.map
          (fun item => rerankBlend (results.getD item.index defaultResult) item))
      else results

/-- applyFilters models `applyFilters(results, options)`: the four
filters run in order, each only when configured.  The file-type filter
passes results with no file; the date filter passes results with no
modified stamp; the tag filter drops results with no tag list; the
folder filter drops results whose path is absent or empty (both falsy). -/
def applyFilters (results : List SearchResult) (options : SearchOptions) :
    List SearchResult :=
  let f1 :=
    if options.fileTypes.length > 0 then
      results.filter (fun r =>
        match r.file with
        | none => true
        | some f => options.fileTypes.contains f.extension)
    else results
  let f2 :=
    match options.dateRange with
    | some dr =>
      f1.filter (fun r =>
        match r.metadata.modified with
        | none => true
        | some m => decide (dr.fromTime ≤ m) && decide (m ≤ dr.toTime))
    | none => f1
  let f3 :=
    match options.tags with
    | some ts =>
      if ts.length > 0 then
        f2.filter (fun r =>
          match r.metadata.tags with
          | none => false
          | some rts => ts.any (fun t => rts.contains t))
      else f2
    | none => f2
  match options.folders with
  | some fs =>
    if fs.length > 0 then
      f3.filter (fun r =>
        match r.metadata.path with
        | none => false
        | some p => if p = "" then false else fs.any (fun folder => p.startsWith folder))
    else f3
  | none => f3

/-- sortComparison is the comparator body of `sortResults`: the
`relevance`, `date` and `size` branches compare `b` against `a` (so a
positive value puts `a` after `b`), while the `title` branch is
`a.title.localeCompare(b.title)`. -/
def sortComparison (options : SearchOptions) (a b : SearchResult) : ℚ :=
  match options.sortBy with
  | .relevance => finalOrScore b - finalOrScore a
  | .date => ((b.metadata.modified.getD 0 : Nat) : ℚ) - ((a.metadata.modified.getD 0 : Nat) : ℚ)
  | .title => (lexCompare a.title.data b.title.data : ℚ)
  | .size => ((b.metadata.wordCount.getD 0 : Nat) : ℚ) - ((a.metadata.wordCount.getD 0 : Nat) : ℚ)

/-- sortResults models `sortResults(results, options)`: a stable sort by
the comparator, negated unless `sortOrder` is `desc`. -/
def sortResults (results : List SearchResult) (options : SearchOptions) :
    List SearchResult :=
  jsSort (fun a b =>
    decide ((if options.sortOrder = SortOrder.desc then sortComparison options a b
             else -sortComparison options a b) ≤ 0)) results

/-- CacheKey is the canonical serialization `generateCacheKey` builds:
`JSON.stringify` of exactly these six option fields, modelled by the
tuple itself (the serialization is injective on them). -/
structure CacheKey where
  query : String
  searchType : SearchType
  useRerank : Bool
  fileTypes : List String
  tags : Option (List String)
  folders : Option (List String)
deriving DecidableEq, Repr

/-- generateCacheKey models `generateCacheKey(options)`. -/
def generateCacheKey (options : SearchOptions) : CacheKey :=
  { query := options.query
    searchType := options.searchType
    useRerank := options.useRerank
    fileTypes := options.fileTypes
    tags := options.tags
    folders := options.folders }

/-- HistEntry is one search-history record; the ISO timestamp string is
modelled by its epoch value. -/
structure HistEntry where
  query : String
  timestamp : Nat
  resultCount : Nat
deriving DecidableEq, Repr

/-- CacheEntry is one cache record: the result list and its capture time. -/
structure CacheEntry where
  results : List SearchResult
  timestamp : Nat
deriving DecidableEq, Repr

/-- EngineState is the mutable state of `EnhancedSearchEngine` the claims
concern: the search history and the result cache. -/
structure EngineState where
  searchHistory : List HistEntry
  searchCache : List (CacheKey × CacheEntry)
deriving DecidableEq, Repr

/-- emptyState is the state of a freshly constructed engine. -/
def emptyState : EngineState := { searchHistory := [], searchCache := [] }

/-- cacheTimeout is the five-minute TTL in milliseconds. -/
def cacheTimeout : Nat := 5 * 60 * 1000

/-- cacheGet is `searchCache.get(key)`. -/
def cacheGet (c : List (CacheKey × CacheEntry)) (k : CacheKey) : Option CacheEntry :=
  (c.find? (fun p => decide (p.1 = k))).map (fun p => p.2)

/-- cacheSet is `searchCache.set(key, entry)`: replace in place when the
key exists, append otherwise. -/
def cacheSet (c : List (CacheKey × CacheEntry)) (k : CacheKey) (e : CacheEntry) :
    List (CacheKey × CacheEntry) :=
  if c.any (fun p => p.1 = k) then c.map (fun p => if p.1 = k then (k, e) else p)
  else c ++ [(k, e)]

/-- addToHistory models `addToHistory`: push the entry at the front and
keep only the most recent 100. -/
def addToHistory (history : List HistEntry) (e : HistEntry) : List HistEntry :=
  (e :: history).take 100

/-- runStrategy is the `switch (options.searchType)` dispatch of
`search`; the `default` arm of the source coincides with the `hybrid`
arm and the selector type is closed, so it has no separate case here. -/
def runStrategy (env : Env) (options : SearchOptions) :
    Except String (List SearchResult) :=
  match options.searchType with
  | .semantic => semanticSearch env options
  | .keyword => keywordSearch env options
  | .hybrid => hybridSearch env options
  | .ai_enhanced => aiEnhancedSearch env options

/-- runSearch is the cache-miss path of `search`: dispatch, optional
rerank, filters, sort, truncation, then cache write and history append.
A strategy rejection is rethrown with the state untouched. -/
def runSearch (env : Env) (now : Nat) (st : EngineState) (options : SearchOptions) :
    Except String (List SearchResult) × EngineState :=
  match runStrategy env options with
  | .error e => (.error e, st)
  | .ok r0 =>
    let r1 := if options.useRerank && env.voyageReady
              then rerankResults env options.query r0 options else r0
    let r2 := applyFilters r1 options
    let r3 := sortResults r2 options
    let results := r3.take options.maxResults
    (.ok results,
     { searchHistory := addToHistory st.searchHistory
         { query := options.query, timestamp := now, resultCount := results.length }
       searchCache := cacheSet st.searchCache (generateCacheKey options)
         { results := results, timestamp := now } })

/-- search models the public `search(options)` entry point at time
`now`: a live cache entry is returned as is with no state change,
otherwise the full pipeline runs. -/
def search (env : Env) (now : Nat) (st : EngineState) (options : SearchOptions) :
    Except String (List SearchResult) × EngineState :=
  match cacheGet st.searchCache (generateCacheKey options) with
  | some cached =>
    if now - cached.timestamp < cacheTimeout then (.ok cached.results, st)
    else runSearch env now st options
  | none => runSearch env now st options

/-- getSearchHistory models `getSearchHistory()`. -/
def getSearchHistory (st : EngineState) : List HistEntry := st.searchHistory

/-- TopQuery is one entry of the analytics `topQueries` list. -/
structure TopQuery where
  query : String
  count : Nat
deriving DecidableEq, Repr

/-- SearchTypeCounts is the `searchTypes` record of the analytics reply. -/
structure SearchTypeCounts where
  semantic : Nat
  keyword : Nat
  hybrid : Nat
  ai_enhanced : Nat
deriving DecidableEq, Repr

/-- Analytics is the reply of `getSearchAnalytics`. -/
structure Analytics where
  totalSearches : Nat
  topQueries : List TopQuery
  averageResults : ℚ
  searchTypes : SearchTypeCounts
deriving DecidableEq, Repr

/-- bumpCount is `queryCount.set(q, (queryCount.get(q) || 0) + 1)` on the
insertion-ordered map of query frequencies. -/
def bumpCount (m : List (String × Nat)) (q : String) : List (String × Nat) :=
  if m.any (fun p => p.1 = q) then
    m.map (fun p => if p.1 = q then (p.1, p.2 + 1) else p)
  else m ++ [(q, 1)]

/-- lookupCount is `queryCount.get(q) || 0`: the stored count of a query,
zero when absent.  It is a specification device for the frequency-map
lemmas. -/
def lookupCount (m : List (String × Nat)) (q : String) : Nat :=
  ((m.find? (fun p => decide (p.1 = q))).map (fun p => p.2)).getD 0

/-- getSearchAnalytics models `getSearchAnalytics()` over the current
history: total entry count, the frequency map sorted descending and
capped at 10, the mean result count (0 for an empty history) and a
`searchTypes` record whose four counters the source initializes to zero
and never updates. -/
def getSearchAnalytics (st : EngineState) : Analytics :=
  let queryCount := st.searchHistory.foldl (fun m s => bumpCount m s.query) []
  let totalResults := (st.searchHistory.map (fun s => s.resultCount)).sum
  { totalSearches := st.searchHistory.length
    topQueries := (jsSort (fun a b => decide (b.count ≤ a.count))
      (queryCount.map (fun p => ({ query := p.1, count := p.2 } : TopQuery)))).take 10
    averageResults :=
      if st.searchHistory.length > 0 then
        (totalResults : ℚ) / (st.searchHistory.length : ℚ)
      else 0
    searchTypes := { semantic := 0, keyword := 0, hybrid := 0, ai_enhanced := 0 } }

/-- mergeLookup is a specification device for the hybrid merge: the value
the merge map finally holds for an entry `x` of the weighted semantic
phase, namely `x` itself when no keyword result shares its id and the
combined entry when one does. -/
def mergeLookup (kw : List SearchResult) (x : SearchResult) : SearchResult :=
  match kw.find? (fun k => decide (k.id = x.id)) with
  | some k => combineInto x k
  | none => x

/-- semPhase abbreviates the semantic fold of the hybrid merge. -/
def semPhase (sem acc : List SearchResult) : List SearchResult :=
  sem.foldl (fun m r => mapSetById m (semWeight r)) acc

/-- envA is a concrete environment: one vault file `b.md` whose content
is the word `payment`, and a vector index returning a single neighbor of
similarity 0.9 whose text does not mention the query word. -/
def envA : Env :=
  { embeddings := true
    embedQuery := fun _ => .ok [1]
    searchSimilar := fun _ _ => .ok [{ text := "Doc A text", score := 9/10 }]
    getMarkdownFiles := .ok
      [{ path := "b.md", basename := "b", extension := "md", ctime := 1000, mtime := 2000 }]
    vaultRead := fun _ => .ok "payment"
    voyageReady := false
    rerankOnly := fun _ _ _ => .ok none
    vercelReady := false
    generateQuestions := fun _ _ => .ok []
    generateText := fun _ _ => .error "unavailable" }

/-- envB is `envA` with a different vault content; it serves as a second
environment witnessing provider independence of cache hits. -/
def envB : Env :=
  { envA with vaultRead := fun _ => .ok "other words" }

/-- optsA is a concrete hybrid request for the query `payment`. -/
def optsA : SearchOptions :=
  { query := "payment", searchType := SearchType.hybrid, maxResults := 10
    useRerank := false, rerankThreshold := 0, includeContent := true
    fileTypes := [], sortBy := SortBy.relevance, sortOrder := SortOrder.desc }

/-- titled builds a bare result with the given title, used by concrete
sorting examples. -/
def titled (t : String) : SearchResult :=
  { id := t, title := t, content := "", score := 1
    metadata := { type := "file", source := "vault" } }

/-- nodeResult is a concrete node-typed result with no file, no path, no
tags and no modified stamp, used by concrete filter examples. -/
def nodeResult : SearchResult :=
  { id := "n1", title := "n1", content := "", score := 1
    metadata := { type := "node", source := "rag" } }

/-- fileB is the single vault file of `envA`. -/
def fileB : TFile :=
  { path := "b.md", basename := "b", extension := "md", ctime := 1000, mtime := 2000 }

/-- hitA is the single vector-index neighbor of `envA`. -/
def hitA : RagHit := { text := "Doc A text", score := 9/10 }

/-- rawSemA is the semantic result `envA` produces for the query
`payment` (document A, similarity 0.9, no keyword match). -/
def rawSemA : SearchResult := semResultOf optsA (0, hitA)

/-- kwResB is the keyword result `envA` produces for the query `payment`
(document B, one query word matching once, score 1). -/
def kwResB : SearchResult := (scoreFile envA optsA ["payment"] fileB).getD defaultResult

/-- stA is the engine state after one executed hybrid search for
`payment` against `envA` at time 0. -/
def stA : EngineState :=
  { searchHistory := [{ query := "payment", timestamp := 0, resultCount := 2 }]
    searchCache := [(generateCacheKey optsA,
      { results := [semWeight rawSemA, kwWeight kwResB], timestamp := 0 })] }

/-- envNoEmb is `envA` with the embedding provider unconfigured. -/
def envNoEmb : Env := { envA with embeddings := false }

/-- envErr is `envA` with a failing vault enumeration. -/
def envErr : Env := { envA with getMarkdownFiles := .error "vault unavailable" }

/-- respR is a concrete rerank reply: candidate 0 scores 0.9, candidate 1
scores 0.2. -/
def respR : RerankResponse :=
  { data := [{ index := 0, relevance_score := 9/10 }, { index := 1, relevance_score := 1/5 }] }

/-- envR is `envA` with a ready rerank provider answering `respR`. -/
def envR : Env :=
  { envA with voyageReady := true, rerankOnly := fun _ _ _ => .ok (some respR) }

/-- optsR is `optsA` with reranking enabled at threshold 0.5. -/
def optsR : SearchOptions :=
  { optsA with useRerank := true, rerankThreshold := 1/2 }

/-- resX is a concrete candidate with prior score 0.5. -/
def resX : SearchResult :=
  { id := "x", title := "x", content := "cx", score := 1/2
    metadata := { type := "file", source := "vault" } }

/-- resY is a concrete candidate with prior score 1. -/
def resY : SearchResult :=
  { id := "y", title := "y", content := "cy", score := 1
    metadata := { type := "file", source := "vault" } }

/-- insertBy permutes: inserting an element yields a permutation of
consing it. -/
theorem insertBy_perm (le : α → α → Bool) (x : α) (l : List α) :
    (insertBy le x l).Perm (x :: l) := by
  induction l with
  | nil => simp [insertBy]
  | cons y ys ih =>
    by_cases h : le y x
    · simpa [insertBy, h] using ((ih.cons y).trans (List.Perm.swap x y ys))
    · simp [insertBy, h]

/-- foldl over insertBy permutes: the sorted accumulation of a list onto
an accumulator is a permutation of their concatenation. -/
theorem foldl_insertBy_perm (le : α → α → Bool) :
    ∀ (l acc : List α), (l.foldl (fun a x => insertBy le x a) acc).Perm (acc ++ l) := by
  intro l
  induction l with
  | nil => intro acc; simp
  | cons x xs ih =>
    intro acc
    have h1 := ih (insertBy le x acc)
    have h2 : (insertBy le x acc ++ xs).Perm (acc ++ x :: xs) :=
      ((insertBy_perm le x acc).append_right xs).trans List.perm_middle.symm
    simpa using h1.trans h2

/-- jsSort permutes its input. -/
theorem jsSort_perm (le : α → α → Bool) (l : List α) : (jsSort le l).Perm l := by
  simpa using foldl_insertBy_perm le l []

/-- jsSort preserves membership. -/
theorem mem_jsSort {le : α → α → Bool} {l : List α} {x : α} :
    x ∈ jsSort le l ↔ x ∈ l :=
  (jsSort_perm le l).mem_iff

/-- insertBy preserves sortedness for a total transitive comparator. -/
theorem insertBy_pairwise {le : α → α → Bool}
    (htot : ∀ a b, le a b ∨ le b a)
    (htr : ∀ a b c, le a b → le b c → le a c)
    (x : α) {l : List α} (hl : l.Pairwise (fun a b => le a b)) :
    (insertBy le x l).Pairwise (fun a b => le a b) := by
  induction l with
  | nil => simp [insertBy]
  | cons y ys ih =>
    rcases List.pairwise_cons.1 hl with ⟨hy, hys⟩
    by_cases h : le y x
    · rw [insertBy, if_pos h]
      refine List.pairwise_cons.2 ⟨?_, ih hys⟩
      intro z hz
      rcases List.mem_cons.1 ((insertBy_perm le x ys).mem_iff.1 hz) with rfl | hz
      · exact h
      · exact hy z hz
    · rw [insertBy, if_neg h]
      have hxy : le x y := by
        rcases htot x y with h' | h'
        · exact h'
        · exact absurd h' h
      refine List.pairwise_cons.2 ⟨?_, hl⟩
      intro z hz
      rcases List.mem_cons.1 hz with rfl | hz
      · exact hxy
      · exact htr x y z hxy (hy z hz)

/-- foldl over insertBy preserves the sortedness of the accumulator. -/
theorem foldl_insertBy_pairwise {le : α → α → Bool}
    (htot : ∀ a b, le a b ∨ le b a)
    (htr : ∀ a b c, le a b → le b c → le a c) :
    ∀ (l acc : List α), acc.Pairwise (fun a b => le a b) →
      (l.foldl (fun a x => insertBy le x a) acc).Pairwise (fun a b => le a b) := by
  intro l
  induction l with
  | nil => intro acc h; simpa using h
  | cons x xs ih =>
    intro acc h
    exact ih _ (insertBy_pairwise htot htr x h)

/-- jsSort sorts: for a total transitive comparator the output is
pairwise ordered. -/
theorem jsSort_pairwise {le : α → α → Bool}
    (htot : ∀ a b, le a b ∨ le b a)
    (htr : ∀ a b c, le a b → le b c → le a c) (l : List α) :
    (jsSort le l).Pairwise (fun a b => le a b) :=
  foldl_insertBy_pairwise htot htr l [] (by simp)

@[simp] theorem semWeight_id (r : SearchResult) : (semWeight r).id = r.id := rfl

@[simp] theorem semWeight_score (r : SearchResult) : (semWeight r).score = r.score := rfl

@[simp] theorem semWeight_finalScore (r : SearchResult) :
    (semWeight r).finalScore = some (r.score * (7/10)) := rfl

@[simp] theorem kwWeight_id (r : SearchResult) : (kwWeight r).id = r.id := rfl

@[simp] theorem kwWeight_score (r : SearchResult) : (kwWeight r).score = r.score := rfl

@[simp] theorem kwWeight_finalScore (r : SearchResult) :
    (kwWeight r).finalScore = some (r.score * (3/10)) := rfl

@[simp] theorem combineInto_id (e r : SearchResult) : (combineInto e r).id = e.id := rfl

/-- semPhase with pairwise-distinct semantic ids disjoint from the
accumulator appends the weighted semantic results in order. -/
theorem semPhase_eq : ∀ (sem acc : List SearchResult),
    (sem.map (fun r => r.id)).Nodup →
    (∀ a ∈ acc, ∀ s_ ∈ sem, a.id ≠ s_.id) →
    semPhase sem acc = acc ++ sem.map semWeight := by
  intro sem
  induction sem with
  | nil => intro acc _ _; simp [semPhase]
  | cons s ss ih =>
    intro acc hn hd
    rw [List.map_cons, List.nodup_cons] at hn
    have hne : acc.any (fun x => decide (x.id = (semWeight s).id)) = false := by
      rw [Bool.eq_false_iff]
      intro h
      obtain ⟨a, ha, hpa⟩ := List.any_eq_true.1 h
      exact hd a ha s (List.mem_cons_self s ss) (by simpa using hpa)
    have hstep : mapSetById acc (semWeight s) = acc ++ [semWeight s] := by
      rw [mapSetById, hne]
      simp
    have hd' : ∀ a ∈ acc ++ [semWeight s], ∀ t ∈ ss, a.id ≠ t.id := by
      intro a ha t ht
      rcases List.mem_append.1 ha with ha | ha
      · exact hd a ha t (List.mem_cons_of_mem s ht)
      · have : a = semWeight s := by simpa using ha
        subst this
        simp only [semWeight_id]
        intro hcon
        exact hn.1 (hcon ▸ List.mem_map_of_mem (fun r => r.id) ht)
    have := ih (acc ++ [semWeight s]) hn.2 hd'
    calc semPhase (s :: ss) acc = semPhase ss (mapSetById acc (semWeight s)) := rfl
      _ = semPhase ss (acc ++ [semWeight s]) := by rw [hstep]
      _ = (acc ++ [semWeight s]) ++ ss.map semWeight := this
      _ = acc ++ (s :: ss).map semWeight := by simp

/-- semPhase preserves the 0.7-weighting invariant of every entry, with
no distinctness assumption: a replacing `set` installs a freshly weighted
entry. -/
theorem semPhase_inv : ∀ (sem acc : List SearchResult),
    (∀ a ∈ acc, a.finalScore = some (a.score * (7/10))) →
    ∀ x ∈ semPhase sem acc, x.finalScore = some (x.score * (7/10)) := by
  intro sem
  induction sem with
  | nil => intro acc h; simpa [semPhase] using h
  | cons s ss ih =>
    intro acc h x hx
    refine ih (mapSetById acc (semWeight s)) ?_ x hx
    intro a ha
    rw [mapSetById] at ha
    by_cases hc : acc.any (fun x => decide (x.id = (semWeight s).id))
    · rw [if_pos hc] at ha
      obtain ⟨b, hb, hba⟩ := List.mem_map.1 ha
      by_cases hbid : b.id = (semWeight s).id
      · rw [if_pos (by simpa using hbid)] at hba
        subst hba; simp
      · rw [if_neg (by simpa using hbid)] at hba
        exact hba ▸ h b hb
    · rw [if_neg hc] at ha
      rcases List.mem_append.1 ha with ha | ha
      · exact h a ha
      · have : a = semWeight s := by simpa using ha
        subst this; simp

/-- mapSetById introduces no id beyond those of the map and the stored
value. -/
theorem mapSetById_ids (m : List SearchResult) (v : SearchResult) :
    ∀ i ∈ (mapSetById m v).map (fun r => r.id),
      i ∈ m.map (fun r => r.id) ∨ i = v.id := by
  intro i hi
  rw [mapSetById] at hi
  by_cases hc : m.any (fun x => decide (x.id = v.id))
  · rw [if_pos hc] at hi
    obtain ⟨b, hb, hbi⟩ := List.mem_map.1 hi
    obtain ⟨b0, hb0, hb0b⟩ := List.mem_map.1 hb
    by_cases hbid : b0.id = v.id
    · have hvb : v = b := by rwa [if_pos hbid] at hb0b
      right; rw [← hbi, ← hvb]
    · have hbb : b0 = b := by rwa [if_neg hbid] at hb0b
      left
      rw [← hbi, ← hbb]
      exact List.mem_map_of_mem _ hb0
  · rw [if_neg hc] at hi
    obtain ⟨b, hb, hbi⟩ := List.mem_map.1 hi
    rcases List.mem_append.1 hb with hb | hb
    · left; exact hbi ▸ List.mem_map_of_mem _ hb
    · right
      have : b = v := by simpa using hb
      rw [← hbi, this]

/-- semPhase introduces no ids beyond those of the accumulator and the
semantic inputs. -/
theorem semPhase_ids : ∀ (sem acc : List SearchResult),
    ∀ x ∈ semPhase sem acc,
      x.id ∈ acc.map (fun r => r.id) ∨ x.id ∈ sem.map (fun r => r.id) := by
  intro sem
  induction sem with
  | nil => intro acc x hx; left; exact List.mem_map_of_mem _ (by simpa [semPhase] using hx)
  | cons s ss ih =>
    intro acc x hx
    rcases ih (mapSetById acc (semWeight s)) x hx with h | h
    · rcases mapSetById_ids acc (semWeight s) x.id h with h' | h'
      · left; exact h'
      · right
        rw [List.map_cons]
        exact h' ▸ List.mem_cons_self _ _
    · right
      obtain ⟨t, ht, hti⟩ := List.mem_map.1 h
      exact hti ▸ List.mem_map_of_mem _ (List.mem_cons_of_mem s ht)

/-- mapSetById preserves distinctness of the stored ids. -/
theorem mapSetById_nodup {m : List SearchResult} (v : SearchResult)
    (h : (m.map (fun r => r.id)).Nodup) :
    ((mapSetById m v).map (fun r => r.id)).Nodup := by
  rw [mapSetById]
  by_cases hc : m.any (fun x => decide (x.id = v.id))
  · rw [if_pos hc]
    have : (m.map (fun x => if x.id = v.id then v else x)).map (fun r => r.id) =
        m.map (fun r => r.id) := by
      rw [List.map_map]
      refine List.map_congr_left ?_
      intro a _
      by_cases ha : a.id = v.id
      · simp [ha]
      · simp [ha]
    rw [this]; exact h
  · rw [if_neg hc]
    rw [List.map_append]
    rw [List.nodup_append]
    refine ⟨h, by simp, ?_⟩
    intro i hi hiv
    have : i = v.id := by simpa using hiv
    subst this
    obtain ⟨b, hb, hbi⟩ := List.mem_map.1 hi
    exact hc (List.any_eq_true.2 ⟨b, hb, by simpa using hbi⟩)

/-- semPhase preserves distinctness of the stored ids. -/
theorem semPhase_nodup : ∀ (sem acc : List SearchResult),
    (acc.map (fun r => r.id)).Nodup →
    ((semPhase sem acc).map (fun r => r.id)).Nodup := by
  intro sem
  induction sem with
  | nil => intro acc h; simpa [semPhase] using h
  | cons s ss ih =>
    intro acc h
    exact ih (mapSetById acc (semWeight s)) (mapSetById_nodup (semWeight s) h)

@[simp] theorem mergeLookup_nil (x : SearchResult) : mergeLookup [] x = x := by
  simp [mergeLookup]

/-- mergeLookup is the identity when no keyword result shares the id. -/
theorem mergeLookup_not_mem {kw : List SearchResult} {x : SearchResult}
    (h : x.id ∉ kw.map (fun r => r.id)) : mergeLookup kw x = x := by
  rw [mergeLookup]
  have : kw.find? (fun k => decide (k.id = x.id)) = none := by
    rw [List.find?_eq_none]
    intro k hk
    simp only [decide_eq_true_eq]
    intro hkx
    exact h (hkx ▸ List.mem_map_of_mem (fun r => r.id) hk)
  rw [this]

/-- replacement keyed by an id leaves the stored id list unchanged when
the replacement carries the same id. -/
theorem replace_map_ids (m : List SearchResult) (v : SearchResult) (w : String)
    (hv : v.id = w) :
    ((m.map (fun x => if x.id = w then v else x)).map (fun r => r.id)) =
      m.map (fun r => r.id) := by
  rw [List.map_map]
  refine List.map_congr_left ?_
  intro a _
  by_cases h : a.id = w
  · simp [h, hv]
  · simp [h]

/-- any over a mapped list tests the composite predicate. -/
theorem any_comp_map (f : α → β) (p : β → Bool) :
    ∀ l : List α, (l.map f).any p = l.any (fun a => p (f a)) := by
  intro l
  induction l with
  | nil => rfl
  | cons x xs ih => simp [List.any_cons, ih]

/-- lists with the same stored ids answer the same id-membership tests. -/
theorem any_id_congr {m₁ m₂ : List SearchResult}
    (h : m₁.map (fun r => r.id) = m₂.map (fun r => r.id)) (w : String) :
    (m₁.any fun a => decide (a.id = w)) = (m₂.any fun a => decide (a.id = w)) := by
  have e1 := any_comp_map (fun r : SearchResult => r.id) (fun i => decide (i = w)) m₁
  have e2 := any_comp_map (fun r : SearchResult => r.id) (fun i => decide (i = w)) m₂
  rw [← e1, ← e2, h]

/-- foldl over kwStep with pairwise-distinct keyword ids and accumulator
ids rewrites every accumulator entry through `mergeLookup` and appends
the keyword results whose ids the accumulator does not hold, weighted by
0.3, in order. -/
theorem foldl_kwStep_eq : ∀ (kw acc : List SearchResult),
    (kw.map (fun r => r.id)).Nodup →
    (acc.map (fun r => r.id)).Nodup →
    kw.foldl kwStep acc =
      acc.map (mergeLookup kw) ++
      (kw.filter (fun k => !(acc.any (fun a => decide (a.id = k.id))))).map kwWeight := by
  intro kw
  induction kw with
  | nil =>
    intro acc _ _
    have hml : mergeLookup ([] : List SearchResult) = fun x => x := funext mergeLookup_nil
    simp [hml]
  | cons k ks ih =>
    intro acc hkn han
    rw [List.map_cons, List.nodup_cons] at hkn
    have hfold : (k :: ks).foldl kwStep acc = ks.foldl kwStep (kwStep acc k) := rfl
    cases hfind : acc.find? (fun x => decide (x.id = k.id)) with
    | none =>
      have hnotin : ∀ a ∈ acc, ¬(a.id = k.id) := by
        intro a ha
        have := List.find?_eq_none.1 hfind a ha
        simpa using this
      have hstep : kwStep acc k = acc ++ [kwWeight k] := by
        rw [kwStep, hfind]
      have hany : acc.any (fun a => decide (a.id = k.id)) = false := by
        rw [Bool.eq_false_iff]
        intro h
        obtain ⟨a, ha, hpa⟩ := List.any_eq_true.1 h
        exact hnotin a ha (by simpa using hpa)
      have han' : ((acc ++ [kwWeight k]).map (fun r => r.id)).Nodup := by
        rw [List.map_append, List.nodup_append]
        refine ⟨han, by simp, ?_⟩
        intro i hi hik
        have : i = k.id := by simpa using hik
        subst this
        obtain ⟨a, ha, hai⟩ := List.mem_map.1 hi
        exact hnotin a ha hai
      rw [hfold, hstep, ih (acc ++ [kwWeight k]) hkn.2 han']
      have hb : mergeLookup ks (kwWeight k) = kwWeight k :=
        mergeLookup_not_mem (by simpa using hkn.1)
      have ha' : acc.map (mergeLookup ks) = acc.map (mergeLookup (k :: ks)) := by
        refine List.map_congr_left ?_
        intro a ha
        have hfneg : (k :: ks).find? (fun kq => decide (kq.id = a.id)) =
            ks.find? (fun kq => decide (kq.id = a.id)) :=
          List.find?_cons_of_neg _
            (by simp only [decide_eq_true_eq]; exact fun h => hnotin a ha h.symm)
        rw [mergeLookup, mergeLookup, hfneg]
      have hc : (ks.filter (fun j => !((acc ++ [kwWeight k]).any (fun a => decide (a.id = j.id))))) =
          ks.filter (fun j => !(acc.any (fun a => decide (a.id = j.id)))) := by
        refine List.filter_congr ?_
        intro j hj
        have hker : ([kwWeight k].any fun a => decide (a.id = j.id)) = false := by
          simp only [List.any_cons, List.any_nil, Bool.or_false, kwWeight_id,
            decide_eq_false_iff_not]
          intro h
          exact hkn.1 (h ▸ List.mem_map_of_mem (fun r => r.id) hj)
        rw [List.any_append, hker, Bool.or_false]
      have hfilter : (k :: ks).filter (fun j => !(acc.any (fun a => decide (a.id = j.id)))) =
          k :: ks.filter (fun j => !(acc.any (fun a => decide (a.id = j.id)))) := by
        rw [List.filter_cons, if_pos (by rw [hany]; rfl)]
      rw [hc, List.map_append, List.map_singleton, hb, ← ha', hfilter, List.map_cons,
        List.append_assoc, List.singleton_append]
    | some existing =>
      have hmem : existing ∈ acc := List.mem_of_find?_eq_some hfind
      have hexid : existing.id = k.id := by simpa using List.find?_some hfind
      have hstep : kwStep acc k =
          acc.map (fun x => if x.id = k.id then combineInto existing k else x) := by
        rw [kwStep, hfind]
      have hids : ((acc.map (fun x => if x.id = k.id then combineInto existing k else x)).map
          (fun r => r.id)) = acc.map (fun r => r.id) :=
        replace_map_ids acc (combineInto existing k) k.id (by rw [combineInto_id, hexid])
      have han' : ((acc.map (fun x => if x.id = k.id then combineInto existing k else x)).map
          (fun r => r.id)).Nodup := by rw [hids]; exact han
      rw [hfold, hstep, ih _ hkn.2 han']
      have hanyk : acc.any (fun a => decide (a.id = k.id)) = true :=
        List.any_eq_true.2 ⟨existing, hmem, by simpa using hexid⟩
      have hfilter : (k :: ks).filter (fun j => !(acc.any (fun a => decide (a.id = j.id)))) =
          ks.filter (fun j => !(acc.any (fun a => decide (a.id = j.id)))) := by
        rw [List.filter_cons, if_neg (by rw [hanyk]; simp)]
      have hc : (ks.filter (fun j =>
            !((acc.map (fun x => if x.id = k.id then combineInto existing k else x)).any
              (fun a => decide (a.id = j.id))))) =
          ks.filter (fun j => !(acc.any (fun a => decide (a.id = j.id)))) := by
        refine List.filter_congr ?_
        intro j _
        rw [any_id_congr hids j.id]
      have ha' : (acc.map (fun x => if x.id = k.id then combineInto existing k else x)).map
          (mergeLookup ks) = acc.map (mergeLookup (k :: ks)) := by
        rw [List.map_map]
        refine List.map_congr_left ?_
        intro a ha
        by_cases haid : a.id = k.id
        · have haex : a = existing :=
            List.inj_on_of_nodup_map han ha hmem (by rw [haid, hexid])
          have hlhs : mergeLookup ks (combineInto existing k) = combineInto existing k := by
            refine mergeLookup_not_mem ?_
            rw [combineInto_id, hexid]
            simpa using hkn.1
          have hpk : (fun kq : SearchResult => decide (kq.id = a.id)) k = true := by
            simpa using haid.symm
          have hfk : (k :: ks).find? (fun kq => decide (kq.id = a.id)) = some k :=
            List.find?_cons_of_pos _ hpk
          have hrhs : mergeLookup (k :: ks) a = combineInto a k := by
            rw [mergeLookup, hfk]
          simp only [Function.comp_apply]
          rw [if_pos haid, hlhs, hrhs, haex]
        · have hfneg : (k :: ks).find? (fun kq => decide (kq.id = a.id)) =
              ks.find? (fun kq => decide (kq.id = a.id)) :=
            List.find?_cons_of_neg _
              (by simp only [decide_eq_true_eq]; exact fun h => haid h.symm)
          have hml : mergeLookup (k :: ks) a = mergeLookup ks a := by
            rw [mergeLookup, mergeLookup, hfneg]
          simp only [Function.comp_apply]
          rw [if_neg haid, hml]
      rw [ha', hc, hfilter]

/-- jsOr applied to a freshly weighted semantic score reduces to the
weighted score: when the weighted score is zero (falsy) the fallback is
the raw score, which is then also zero. -/
theorem jsOr_weighted (q w : ℚ) (hw : w ≠ 0) : jsOr (some (q * w)) q = q * w := by
  rw [jsOr]
  by_cases h : q * w = 0
  · rw [if_pos h, h]
    rcases mul_eq_zero.1 h with h' | h'
    · exact h'
    · exact absurd h' hw
  · rw [if_neg h]

/-- ids are unchanged by the semantic weighting map. -/
theorem map_semWeight_ids (sem : List SearchResult) :
    ((sem.map semWeight).map (fun r => r.id)) = sem.map (fun r => r.id) := by
  rw [List.map_map]
  rfl

/-- hybridMerge with pairwise-distinct ids on both sides is the weighted
semantic list, each entry combined with the keyword result sharing its
id when one exists, followed by the weighted keyword-only results. -/
theorem hybridMerge_eq (sem kw : List SearchResult)
    (hs : (sem.map (fun r => r.id)).Nodup)
    (hk : (kw.map (fun r => r.id)).Nodup) :
    hybridMerge sem kw =
      (sem.map semWeight).map (mergeLookup kw) ++
      (kw.filter (fun k => !(sem.any (fun s_ => decide (s_.id = k.id))))).map kwWeight := by
  have h1 : semPhase sem [] = sem.map semWeight := by
    have := semPhase_eq sem [] hs (by simp)
    simpa using this
  have h2 : ((sem.map semWeight).map (fun r => r.id)).Nodup := by
    rw [map_semWeight_ids]; exact hs
  have h3 := foldl_kwStep_eq kw (sem.map semWeight) hk h2
  have h4 : (kw.filter (fun k => !((sem.map semWeight).any (fun a => decide (a.id = k.id))))) =
      kw.filter (fun k => !(sem.any (fun s_ => decide (s_.id = k.id)))) := by
    refine List.filter_congr ?_
    intro k _
    rw [any_comp_map semWeight (fun a => decide (a.id = k.id)) sem]
    simp only [semWeight_id]
  calc hybridMerge sem kw = kw.foldl kwStep (semPhase sem []) := rfl
    _ = kw.foldl kwStep (sem.map semWeight) := by rw [h1]
    _ = (sem.map semWeight).map (mergeLookup kw) ++
        (kw.filter (fun k => !((sem.map semWeight).any (fun a => decide (a.id = k.id))))).map kwWeight := h3
    _ = _ := by rw [h4]

/-- hybridMerge with disjoint semantic and keyword ids (semantic
duplicates allowed) gives every entry a final score of exactly 0.7 or
0.3 times its own score: the combining branch never runs. -/
theorem hybridMerge_dichotomy (sem kw : List SearchResult)
    (hdisj : ∀ s_ ∈ sem, ∀ k ∈ kw, s_.id ≠ k.id)
    (hk : (kw.map (fun r => r.id)).Nodup) :
    ∀ x ∈ hybridMerge sem kw,
      x.finalScore = some (x.score * (7/10)) ∨ x.finalScore = some (x.score * (3/10)) := by
  intro x hx
  have hP := semPhase_inv sem [] (by simp)
  have hN := semPhase_nodup sem [] (by simp)
  have hI := semPhase_ids sem []
  have hfold : hybridMerge sem kw = kw.foldl kwStep (semPhase sem []) := rfl
  rw [hfold, foldl_kwStep_eq kw (semPhase sem []) hk hN] at hx
  rcases List.mem_append.1 hx with hx | hx
  · obtain ⟨y, hy, hyx⟩ := List.mem_map.1 hx
    have hyid : y.id ∈ sem.map (fun r => r.id) := by
      rcases hI y hy with h | h
      · simp at h
      · exact h
    obtain ⟨s_, hs_, hsid⟩ := List.mem_map.1 hyid
    have hnotkw : y.id ∉ kw.map (fun r => r.id) := by
      intro hkw
      obtain ⟨k, hkmem, hkid⟩ := List.mem_map.1 hkw
      exact hdisj s_ hs_ k hkmem (by rw [hsid, ← hkid])
    rw [mergeLookup_not_mem hnotkw] at hyx
    left
    exact hyx ▸ hP y hy
  · obtain ⟨k, _, hkx⟩ := List.mem_map.1 hx
    right
    rw [← hkx]
    simp

/-- hybridSearch succeeds exactly when the keyword sub-search does, and
its value is the sorted merge of the (error-absorbed) semantic results
with the keyword results. -/
theorem hybridSearch_ok {env : Env} {opts : SearchOptions} {res : List SearchResult}
    (h : hybridSearch env opts = .ok res) :
    ∃ kw, keywordSearch env opts = .ok kw ∧
      res = sortByFinalDesc (hybridMerge
        (match semanticSearch env opts with
         | .ok s => s
         | .error _ => []) kw) := by
  rw [hybridSearch] at h
  cases hkw : keywordSearch env opts with
  | error e =>
    rw [hkw] at h
    exact absurd h (by simp [Bind.bind, Except.bind])
  | ok kw =>
    rw [hkw] at h
    refine ⟨kw, rfl, ?_⟩
    have : Except.ok (ε := String) (sortByFinalDesc (hybridMerge
        (match semanticSearch env opts with
         | .ok s => s
         | .error _ => []) kw)) = .ok res := h
    exact (Except.ok.inj this).symm

/-- keywordSearch succeeds exactly when the vault enumeration does, and
its value is the sorted per-file scoring of the vault files. -/
theorem keywordSearch_ok {env : Env} {opts : SearchOptions} {res : List SearchResult}
    (h : keywordSearch env opts = .ok res) :
    ∃ files, env.getMarkdownFiles = .ok files ∧
      res = jsSort (fun a b => decide (b.score ≤ a.score))
        (files.filterMap (scoreFile env opts (jsSplitWs (jsToLower opts.query)))) := by
  rw [keywordSearch] at h
  cases hf : env.getMarkdownFiles with
  | error e =>
    rw [hf] at h
    exact absurd h (by simp [Bind.bind, Except.bind])
  | ok files =>
    rw [hf] at h
    refine ⟨files, rfl, ?_⟩
    exact (Except.ok.inj h).symm

/-- scoreFile only ever builds a result whose id is `keyword_` followed
by the file path, carrying the file and its path in the metadata. -/
theorem scoreFile_some {env : Env} {opts : SearchOptions} {qw : List String}
    {f : TFile} {r : SearchResult} (h : scoreFile env opts qw f = some r) :
    r.id = "keyword_" ++ f.path ∧ r.metadata.path = some f.path ∧ r.file = some f := by
  rw [scoreFile] at h
  cases hread : env.vaultRead f with
  | error e => rw [hread] at h; exact absurd h (by simp)
  | ok content =>
    rw [hread] at h
    dsimp only at h
    split at h
    · have h2 := Option.some.inj h
      rw [← h2]
      exact ⟨rfl, rfl, rfl⟩
    · exact absurd h (by simp)

/-- semanticSearch succeeds exactly when the provider chain does, and
its value enumerates the returned neighbors in order. -/
theorem semanticSearch_ok {env : Env} {opts : SearchOptions} {res : List SearchResult}
    (h : semanticSearch env opts = .ok res) :
    env.embeddings = true ∧
    ∃ qe rag, env.embedQuery opts.query = .ok qe ∧
      env.searchSimilar qe (opts.maxResults * 2) = .ok rag ∧
      res = rag.enum.map (semResultOf opts) := by
  rw [semanticSearch] at h
  cases hemb : env.embeddings with
  | false => rw [hemb] at h; exact absurd h (by simp)
  | true =>
    rw [hemb] at h
    rw [if_neg (by simp)] at h
    refine ⟨rfl, ?_⟩
    cases hq : env.embedQuery opts.query with
    | error e => rw [hq] at h; exact absurd h (by simp)
    | ok qe =>
      rw [hq] at h
      dsimp only at h
      cases hr : env.searchSimilar qe (opts.maxResults * 2) with
      | error e => rw [hr] at h; exact absurd h (by simp)
      | ok rag =>
        rw [hr] at h
        refine ⟨qe, rag, rfl, hr, ?_⟩
        exact (Except.ok.inj h).symm

/-- semanticSearch rejects with the fixed message when no embedding
provider is configured. -/
theorem semanticSearch_no_embeddings {env : Env} (opts : SearchOptions)
    (h : env.embeddings = false) :
    semanticSearch env opts = .error "Embeddings not available for semantic search" := by
  rw [semanticSearch, h]
  simp

/-- keywordSearch rejects exactly as the vault enumeration does. -/
theorem keywordSearch_error {env : Env} (opts : SearchOptions) {e : String}
    (h : env.getMarkdownFiles = .error e) :
    keywordSearch env opts = .error e := by
  rw [keywordSearch, h]

/-- hybridSearch propagates a keyword rejection. -/
theorem hybridSearch_kw_error {env : Env} (opts : SearchOptions) {e : String}
    (h : keywordSearch env opts = .error e) :
    hybridSearch env opts = .error e := by
  rw [hybridSearch, h]

/-- hybridSearch absorbs a semantic rejection: the merge then runs on an
empty semantic list. -/
theorem hybridSearch_sem_error {env : Env} (opts : SearchOptions) {e : String}
    {kw : List SearchResult}
    (hsem : semanticSearch env opts = .error e)
    (hkw : keywordSearch env opts = .ok kw) :
    hybridSearch env opts = .ok (sortByFinalDesc (hybridMerge [] kw)) := by
  rw [hybridSearch, hkw, hsem]

/-- appending to a fixed front string is injective. -/
theorem append_left_cancel {p a b : String} (h : p ++ a = p ++ b) : a = b := by
  have hd := congrArg String.data h
  rw [String.data_append, String.data_append] at hd
  have h2 := List.append_cancel_left hd
  cases a; cases b
  exact congrArg String.mk h2

/-- semantic ids and keyword ids never coincide: the former start with
`semantic_`, the latter with `keyword_`. -/
theorem sem_kw_id_ne (a b : String) : ("semantic_" ++ a) ≠ ("keyword_" ++ b) := by
  intro h
  have hd := congrArg String.data h
  rw [String.data_append, String.data_append] at hd
  have e1 : "semantic_".data = ['s','e','m','a','n','t','i','c','_'] := by decide
  have e2 : "keyword_".data = ['k','e','y','w','o','r','d','_'] := by decide
  rw [e1, e2] at hd
  simp at hd

/-- semanticSearch ids are purely positional: the id list of a
successful call is `semantic_0`, `semantic_1`, ... regardless of the
returned neighbors. -/
theorem semanticSearch_ids {env : Env} {opts : SearchOptions} {res : List SearchResult}
    (h : semanticSearch env opts = .ok res) :
    res.map (fun r => r.id) =
      (List.range res.length).map (fun i => "semantic_" ++ toString i) := by
  obtain ⟨_, qe, rag, _, _, hres⟩ := semanticSearch_ok h
  subst hres
  rw [List.map_map]
  have hlen : (rag.enum.map (semResultOf opts)).length = rag.length := by
    rw [List.length_map, List.enum_length]
  rw [hlen]
  have hcomp : ((fun r : SearchResult => r.id) ∘ semResultOf opts) =
      (fun p : Nat × RagHit => "semantic_" ++ toString p.1) := rfl
  rw [hcomp, List.enum_eq_zip_range]
  have hz : ((List.range rag.length).zip rag).map
      (fun p : Nat × RagHit => "semantic_" ++ toString p.1) =
      (((List.range rag.length).zip rag).map Prod.fst).map
        (fun i => "semantic_" ++ toString i) := by
    rw [List.map_map]
    rfl
  rw [hz, List.map_fst_zip]
  rw [List.length_range]

/-- every result of a keyword search takes its id, path and file from
one of the vault files. -/
theorem keywordSearch_mem {env : Env} {opts : SearchOptions} {res : List SearchResult}
    (h : keywordSearch env opts = .ok res) :
    ∀ r ∈ res, ∃ f, r.id = "keyword_" ++ f.path ∧ r.metadata.path = some f.path ∧
      r.file = some f := by
  obtain ⟨files, _, hres⟩ := keywordSearch_ok h
  intro r hr
  rw [hres] at hr
  obtain ⟨f, _, hsf⟩ := List.mem_filterMap.1 (mem_jsSort.1 hr)
  exact ⟨f, (scoreFile_some hsf).1, (scoreFile_some hsf).2.1, (scoreFile_some hsf).2.2⟩

/-- the ids of the unsorted keyword hits form a sublist of the prefixed
file paths. -/
theorem filterMap_scoreFile_ids (env : Env) (opts : SearchOptions) (qw : List String) :
    ∀ files : List TFile,
      ((files.filterMap (scoreFile env opts qw)).map (fun r => r.id)).Sublist
        (files.map (fun f => "keyword_" ++ f.path)) := by
  intro files
  induction files with
  | nil => simp
  | cons f fs ih =>
    rw [List.filterMap_cons]
    cases hsf : scoreFile env opts qw f with
    | none =>
      rw [List.map_cons]
      exact ih.cons _
    | some r =>
      rw [List.map_cons, List.map_cons, (scoreFile_some hsf).1]
      exact ih.cons₂ _

/-- keyword search ids are pairwise distinct whenever the vault paths
are. -/
theorem keywordSearch_nodup {env : Env} {opts : SearchOptions} {res : List SearchResult}
    {files : List TFile}
    (hf : env.getMarkdownFiles = .ok files)
    (hnd : (files.map (fun f => f.path)).Nodup)
    (h : keywordSearch env opts = .ok res) :
    (res.map (fun r => r.id)).Nodup := by
  obtain ⟨files', hf', hres⟩ := keywordSearch_ok h
  rw [hf] at hf'
  have hfe : files' = files := Except.ok.inj hf'.symm
  rw [hfe] at hres
  have h1 : (files.map (fun f => "keyword_" ++ f.path)).Nodup := by
    have : files.map (fun f => "keyword_" ++ f.path) =
        (files.map (fun f => f.path)).map (fun p => "keyword_" ++ p) := by
      rw [List.map_map]
      rfl
    rw [this]
    exact hnd.map (fun a b hab => append_left_cancel hab)
  have h2 := (filterMap_scoreFile_ids env opts (jsSplitWs (jsToLower opts.query)) files).nodup h1
  have h3 : (res.map (fun r => r.id)).Perm
      ((files.filterMap (scoreFile env opts (jsSplitWs (jsToLower opts.query)))).map
        (fun r => r.id)) := by
    rw [hres]
    exact (jsSort_perm _ _).map _
  exact h3.nodup_iff.2 h2

/-- addToHistory never leaves more than 100 entries. -/
theorem addToHistory_le (h : List HistEntry) (e : HistEntry) :
    (addToHistory h e).length ≤ 100 := by
  rw [addToHistory, List.length_take]
  exact min_le_left _ _

/-- taking `n` of an appended tail already truncated to `n` is taking `n`
of the untruncated append. -/
theorem take_append_take (n : Nat) (xs ys : List α) :
    (xs ++ ys.take n).take n = (xs ++ ys).take n := by
  rw [List.take_append_eq_append_take, List.take_append_eq_append_take, List.take_take]
  rw [min_eq_left (Nat.sub_le n xs.length)]

/-- folding addToHistory over arriving entries keeps the most recent 100,
newest first. -/
theorem foldl_addToHistory : ∀ (es h : List HistEntry), h.length ≤ 100 →
    es.foldl addToHistory h = (es.reverse ++ h).take 100 := by
  intro es
  induction es with
  | nil =>
    intro h hl
    simpa using (List.take_of_length_le hl).symm
  | cons e es' ih =>
    intro h hl
    have h1 : (e :: es').foldl addToHistory h = es'.foldl addToHistory (addToHistory h e) := rfl
    rw [h1, ih (addToHistory h e) (addToHistory_le h e), addToHistory]
    rw [take_append_take]
    rw [List.reverse_cons, List.append_assoc, List.singleton_append]

/-- a search history built from scratch is the reverse-chronological
truncation of the arrival sequence to 100 entries. -/
theorem history_from_empty (es : List HistEntry) :
    es.foldl addToHistory [] = es.reverse.take 100 := by
  simpa using foldl_addToHistory es [] (by simp)

/-- runSearch leaves at most `max (original length) 100` history
entries. -/
theorem runSearch_history_le (env : Env) (now : Nat) (st : EngineState)
    (opts : SearchOptions) :
    (runSearch env now st opts).2.searchHistory.length ≤
      max st.searchHistory.length 100 := by
  rw [runSearch]
  cases runStrategy env opts with
  | error e => exact le_max_left _ _
  | ok r0 => exact le_max_of_le_right (addToHistory_le _ _)

/-- search leaves at most `max (original length) 100` history entries. -/
theorem search_history_le (env : Env) (now : Nat) (st : EngineState)
    (opts : SearchOptions) :
    (search env now st opts).2.searchHistory.length ≤
      max st.searchHistory.length 100 := by
  rw [search]
  cases cacheGet st.searchCache (generateCacheKey opts) with
  | none => exact runSearch_history_le env now st opts
  | some cached =>
    dsimp only
    by_cases hfresh : now - cached.timestamp < cacheTimeout
    · rw [if_pos hfresh]
      exact le_max_left _ _
    · rw [if_neg hfresh]
      exact runSearch_history_le env now st opts

/-- cacheGet finds the entry cacheSet just stored. -/
theorem cacheGet_set_self (c : List (CacheKey × CacheEntry)) (k : CacheKey)
    (e : CacheEntry) : cacheGet (cacheSet c k e) k = some e := by
  rw [cacheSet]
  by_cases hany : c.any (fun p => decide (p.1 = k))
  · rw [if_pos hany]
    induction c with
    | nil => simp at hany
    | cons p ps ih =>
      by_cases hp : p.1 = k
      · rw [List.map_cons, if_pos hp, cacheGet]
        rw [List.find?_cons_of_pos _ (by simp)]
        rfl
      · rw [List.map_cons, if_neg hp]
        rw [cacheGet, List.find?_cons_of_neg _ (by simpa using hp)]
        have hany' : ps.any (fun p => decide (p.1 = k)) := by
          rcases List.any_eq_true.1 hany with ⟨x, hx, hpx⟩
          rcases List.mem_cons.1 hx with rfl | hx
          · exact absurd (by simpa using hpx) hp
          · exact List.any_eq_true.2 ⟨x, hx, hpx⟩
        exact ih hany'
  · rw [if_neg hany]
    induction c with
    | nil =>
      rw [cacheGet, List.nil_append, List.find?_cons_of_pos _ (by simp)]
      rfl
    | cons p ps ih =>
      have hp : ¬(p.1 = k) := by
        intro hk
        exact hany (List.any_eq_true.2 ⟨p, List.mem_cons_self p ps, by simpa using hk⟩)
      rw [List.cons_append, cacheGet, List.find?_cons_of_neg _ (by simpa using hp)]
      have hany' : ¬(ps.any (fun p => decide (p.1 = k)) = true) := by
        intro h
        rcases List.any_eq_true.1 h with ⟨x, hx, hpx⟩
        exact hany (List.any_eq_true.2 ⟨x, List.mem_cons_of_mem p hx, hpx⟩)
      exact ih hany'

@[simp] theorem lookupCount_nil (q : String) : lookupCount [] q = 0 := rfl

/-- lookupCount hits a matching head. -/
theorem lookupCount_cons_pos {x : String × Nat} {xs : List (String × Nat)} {q : String}
    (h : x.1 = q) : lookupCount (x :: xs) q = x.2 := by
  rw [lookupCount, List.find?_cons_of_pos _ (by simpa using h)]
  rfl

/-- lookupCount skips a mismatching head. -/
theorem lookupCount_cons_neg {x : String × Nat} {xs : List (String × Nat)} {q : String}
    (h : ¬(x.1 = q)) : lookupCount (x :: xs) q = lookupCount xs q := by
  rw [lookupCount, List.find?_cons_of_neg _ (by simpa using h), lookupCount]

/-- bumping a different key leaves a lookup unchanged. -/
theorem lookupCount_rep_ne (q q' : String) (hne : q ≠ q') :
    ∀ ps : List (String × Nat),
      lookupCount (ps.map (fun p => if p.1 = q' then (p.1, p.2 + 1) else p)) q =
        lookupCount ps q := by
  intro ps
  induction ps with
  | nil => rfl
  | cons p2 ps2 ih =>
    rw [List.map_cons]
    by_cases hp : p2.1 = q
    · have hq' : ¬(p2.1 = q') := fun h => hne (hp.symm.trans h)
      rw [if_neg hq', lookupCount_cons_pos hp, lookupCount_cons_pos hp]
    · by_cases hq2 : p2.1 = q'
      · rw [if_pos hq2]
        rw [lookupCount_cons_neg (x := (p2.1, p2.2 + 1)) hp, lookupCount_cons_neg hp]
        exact ih
      · rw [if_neg hq2, lookupCount_cons_neg hp, lookupCount_cons_neg hp]
        exact ih

/-- bumping a present key increments its lookup. -/
theorem lookupCount_rep_pos (q : String) :
    ∀ ps : List (String × Nat), ps.any (fun p => decide (p.1 = q)) = true →
      lookupCount (ps.map (fun p => if p.1 = q then (p.1, p.2 + 1) else p)) q =
        lookupCount ps q + 1 := by
  intro ps
  induction ps with
  | nil => intro h; simp at h
  | cons p2 ps2 ih =>
    intro hany
    rw [List.map_cons]
    by_cases hp : p2.1 = q
    · rw [if_pos hp, lookupCount_cons_pos (x := (p2.1, p2.2 + 1)) hp,
        lookupCount_cons_pos hp]
    · rw [if_neg hp, lookupCount_cons_neg hp, lookupCount_cons_neg hp]
      have hany' : ps2.any (fun p => decide (p.1 = q)) = true := by
        rcases List.any_eq_true.1 hany with ⟨x, hx, hpx⟩
        rcases List.mem_cons.1 hx with rfl | hx
        · exact absurd (by simpa using hpx) hp
        · exact List.any_eq_true.2 ⟨x, hx, hpx⟩
      exact ih hany'

/-- appending a fresh singleton behaves like a conditional increment of
the (necessarily zero) lookup of the fresh key. -/
theorem lookupCount_append_fresh (q q' : String) :
    ∀ m : List (String × Nat), m.any (fun p => decide (p.1 = q')) = false →
      lookupCount (m ++ [(q', 1)]) q =
        if q = q' then lookupCount m q + 1 else lookupCount m q := by
  intro m
  induction m with
  | nil =>
    intro _
    rw [List.nil_append]
    by_cases hq : q = q'
    · rw [if_pos hq, lookupCount_cons_pos (by simpa using hq.symm)]
      rfl
    · rw [if_neg hq, lookupCount_cons_neg (by simpa using fun h => hq (h.symm))]
  | cons p ps ih =>
    intro hany
    have hp' : ¬(p.1 = q') := by
      intro h
      rw [List.any_cons] at hany
      simp [h] at hany
    have hany' : ps.any (fun p => decide (p.1 = q')) = false := by
      rw [List.any_cons] at hany
      exact (Bool.or_eq_false_iff.1 hany).2
    rw [List.cons_append]
    by_cases hp : p.1 = q
    · have hq : ¬(q = q') := fun h => hp' (hp.symm ▸ h ▸ rfl)
      rw [if_neg hq, lookupCount_cons_pos hp, lookupCount_cons_pos hp]
    · rw [lookupCount_cons_neg hp, ih hany']
      by_cases hq : q = q'
      · rw [if_pos hq, if_pos hq, lookupCount_cons_neg hp]
      · rw [if_neg hq, if_neg hq, lookupCount_cons_neg hp]

/-- bumpCount increments the lookup of exactly the bumped key. -/
theorem lookupCount_bump (m : List (String × Nat)) (q' q : String) :
    lookupCount (bumpCount m q') q =
      if q = q' then lookupCount m q + 1 else lookupCount m q := by
  rw [bumpCount]
  by_cases hany : m.any (fun p => decide (p.1 = q'))
  · rw [if_pos hany]
    by_cases hq : q = q'
    · subst hq
      rw [if_pos rfl]
      exact lookupCount_rep_pos q m hany
    · rw [if_neg hq]
      exact lookupCount_rep_ne q q' hq m
  · rw [if_neg hany]
    exact lookupCount_append_fresh q q' m (Bool.eq_false_iff.2 hany)

/-- folding bumpCount over the history adds one occurrence per matching
entry. -/
theorem lookupCount_foldl (q : String) :
    ∀ (hist : List HistEntry) (m : List (String × Nat)),
      lookupCount (hist.foldl (fun m s => bumpCount m s.query) m) q =
        lookupCount m q + (hist.filter (fun s => decide (s.query = q))).length := by
  intro hist
  induction hist with
  | nil => intro m; simp
  | cons s hs ih =>
    intro m
    have h1 : (s :: hs).foldl (fun m s => bumpCount m s.query) m =
        hs.foldl (fun m s => bumpCount m s.query) (bumpCount m s.query) := rfl
    rw [h1, ih, lookupCount_bump, List.filter_cons]
    by_cases hq : s.query = q
    · rw [if_pos hq.symm, if_pos (by simpa using hq), List.length_cons]
      omega
    · rw [if_neg (fun h => hq h.symm), if_neg (by simpa using hq)]

/-- bumpCount preserves distinctness of the stored keys. -/
theorem bumpCount_keys_nodup {m : List (String × Nat)} (q : String)
    (h : (m.map Prod.fst).Nodup) : ((bumpCount m q).map Prod.fst).Nodup := by
  rw [bumpCount]
  by_cases hany : m.any (fun p => decide (p.1 = q))
  · rw [if_pos hany]
    have : (m.map (fun p => if p.1 = q then (p.1, p.2 + 1) else p)).map Prod.fst =
        m.map Prod.fst := by
      rw [List.map_map]
      refine List.map_congr_left ?_
      intro p _
      by_cases hp : p.1 = q
      · simp [hp]
      · simp [hp]
    rw [this]
    exact h
  · rw [if_neg hany, List.map_append, List.nodup_append]
    refine ⟨h, by simp, ?_⟩
    intro i hi hik
    have hik' : i = q := by simpa using hik
    subst hik'
    obtain ⟨p, hp, hpi⟩ := List.mem_map.1 hi
    exact hany (List.any_eq_true.2 ⟨p, hp, by simpa using hpi⟩)

/-- a frequency map built from scratch has pairwise-distinct keys. -/
theorem foldl_bump_keys_nodup (hist : List HistEntry) :
    ∀ m : List (String × Nat), (m.map Prod.fst).Nodup →
      ((hist.foldl (fun m s => bumpCount m s.query) m).map Prod.fst).Nodup := by
  induction hist with
  | nil => intro m h; simpa using h
  | cons s hs ih =>
    intro m h
    exact ih (bumpCount m s.query) (bumpCount_keys_nodup s.query h)

/-- in a map with pairwise-distinct keys every stored pair is what its
key looks up. -/
theorem mem_lookupCount : ∀ (m : List (String × Nat)),
    (m.map Prod.fst).Nodup → ∀ p ∈ m, lookupCount m p.1 = p.2 := by
  intro m
  induction m with
  | nil => intro _ p hp; simp at hp
  | cons x xs ih =>
    intro hnd p hp
    rw [List.map_cons, List.nodup_cons] at hnd
    rcases List.mem_cons.1 hp with rfl | hp
    · exact lookupCount_cons_pos rfl
    · have hx : ¬(x.1 = p.1) := by
        intro h
        exact hnd.1 (h ▸ List.mem_map_of_mem Prod.fst hp)
      rw [lookupCount_cons_neg hx]
      exact ih hnd.2 p hp

/-- every pair of the frequency map of a history stores the number of
history entries bearing its query. -/
theorem queryCount_counts (hist : List HistEntry) :
    ∀ p ∈ hist.foldl (fun m s => bumpCount m s.query) [],
      p.2 = (hist.filter (fun s => decide (s.query = p.1))).length := by
  intro p hp
  have h1 := mem_lookupCount _ (foldl_bump_keys_nodup hist [] (by simp)) p hp
  rw [lookupCount_foldl p.1 hist []] at h1
  simpa using h1.symm

/-- kwResB carries the score 1 of the claim scenario: one query word
matching once. -/
theorem ev_ks : kwResB.score = 1 := by
  have h : kwResB.score = ((1:Nat):ℚ)/((1:Nat):ℚ) := rfl
  rw [h]; norm_num

/-- semanticSearch against `envA` returns document A alone. -/
theorem ev_semantic : semanticSearch envA optsA = .ok [rawSemA] := rfl

/-- keywordSearch against `envA` returns document B alone. -/
theorem ev_keyword : keywordSearch envA optsA = .ok [kwResB] := rfl

/-- the merge of the two single-result lists keeps both, weighted. -/
theorem ev_merge : hybridMerge [rawSemA] [kwResB] = [semWeight rawSemA, kwWeight kwResB] := rfl

/-- the comparator key of weighted document B is 0.3. -/
theorem ev_fosk : finalOrScore (kwWeight kwResB) = 3/10 := by
  simp only [finalOrScore, kwWeight_finalScore, kwWeight_score, ev_ks, jsOr]
  norm_num

/-- the comparator key of weighted document A is 0.63. -/
theorem ev_foss : finalOrScore (semWeight rawSemA) = 63/100 := by
  have hss : rawSemA.score = 9/10 := rfl
  simp only [finalOrScore, semWeight_finalScore, semWeight_score, hss, jsOr]
  norm_num

/-- the hybrid sort ranks document A (0.63) above document B (0.3). -/
theorem ev_sortM : sortByFinalDesc [semWeight rawSemA, kwWeight kwResB] =
    [semWeight rawSemA, kwWeight kwResB] := by
  have hle : (decide (finalOrScore (kwWeight kwResB) ≤ finalOrScore (semWeight rawSemA))) = true := by
    rw [ev_fosk, ev_foss]
    norm_num
  simp only [sortByFinalDesc, jsSort, List.foldl, insertBy, hle, if_true]

/-- hybridSearch against `envA` ranks document A above document B. -/
theorem ev_hybrid : hybridSearch envA optsA = .ok [semWeight rawSemA, kwWeight kwResB] := by
  have h1 : hybridSearch envA optsA = .ok (sortByFinalDesc (hybridMerge [rawSemA] [kwResB])) := rfl
  rw [h1, ev_merge, ev_sortM]

/-- the relevance sort of the orchestrator keeps the hybrid order. -/
theorem ev_sortR : sortResults [semWeight rawSemA, kwWeight kwResB] optsA =
    [semWeight rawSemA, kwWeight kwResB] := by
  have hcmp : sortComparison optsA (semWeight rawSemA) (kwWeight kwResB) =
      (3:ℚ)/10 - 63/100 := by
    have hsb : optsA.sortBy = SortBy.relevance := rfl
    rw [sortComparison, hsb]
    rw [ev_foss, ev_fosk]
  have hso : optsA.sortOrder = SortOrder.desc := rfl
  have hle : (decide ((if optsA.sortOrder = SortOrder.desc
      then sortComparison optsA (semWeight rawSemA) (kwWeight kwResB)
      else -sortComparison optsA (semWeight rawSemA) (kwWeight kwResB)) ≤ 0)) = true := by
    rw [hso, if_pos rfl, hcmp]
    norm_num
  simp only [sortResults, jsSort, List.foldl, insertBy, hle, if_true]

/-- a full search against `envA` from a fresh engine returns both
documents ranked A before B and records one cache entry and one history
entry. -/
theorem ev_search : search envA 0 emptyState optsA =
    (.ok [semWeight rawSemA, kwWeight kwResB], stA) := by
  have h0 : search envA 0 emptyState optsA = runSearch envA 0 emptyState optsA := rfl
  have hstrat : runStrategy envA optsA = .ok [semWeight rawSemA, kwWeight kwResB] := by
    have h1 : runStrategy envA optsA = hybridSearch envA optsA := rfl
    rw [h1, ev_hybrid]
  rw [h0, runSearch, hstrat]
  dsimp only
  have hg : (optsA.useRerank && envA.voyageReady) = false := rfl
  rw [hg]
  have hfil : applyFilters [semWeight rawSemA, kwWeight kwResB] optsA =
      [semWeight rawSemA, kwWeight kwResB] := rfl
  rw [if_neg (by simp), hfil, ev_sortR]
  rfl

/-- C1: in every hybrid search merge, a result produced only by the
semantic strategy gets `finalScore = score × 0.7`, a result produced
only by the lexical strategy gets `finalScore = score × 0.3`, and a
result produced by both gets
`finalScore = semanticScore × 0.7 + lexicalScore × 0.3`; the hybrid
output is sorted descending by `finalScore`; and in the concrete
scenario of document A (semantic only, similarity 0.9) versus document B
(lexical only, score 1.0), A gets 0.63, B gets 0.3 and A is ranked
first. -/
theorem c1_hybrid_weighting :
    (∀ (sem kw : List SearchResult),
      (sem.map (fun r => r.id)).Nodup →
      (kw.map (fun r => r.id)).Nodup →
      ∀ r ∈ hybridMerge sem kw,
        (∃ s_ ∈ sem, s_.id = r.id ∧ (∀ k ∈ kw, k.id ≠ r.id) ∧
          r.finalScore = some (s_.score * (7/10))) ∨
        (∃ k ∈ kw, k.id = r.id ∧ (∀ s_ ∈ sem, s_.id ≠ r.id) ∧
          r.finalScore = some (k.score * (3/10))) ∨
        (∃ s_ ∈ sem, ∃ k ∈ kw, s_.id = r.id ∧ k.id = r.id ∧
          r.finalScore = some (s_.score * (7/10) + k.score * (3/10)))) ∧
    (∀ (env : Env) (opts : SearchOptions) (res : List SearchResult),
      hybridSearch env opts = .ok res →
      res.Pairwise (fun a b => finalOrScore b ≤ finalOrScore a)) ∧
    ((hybridSearch envA optsA).map (fun rs => rs.map (fun r => (r.id, r.finalScore))) =
      .ok [("semantic_0", some ((63:ℚ)/100)), ("keyword_b.md", some ((3:ℚ)/10))]) := by
  refine ⟨?_, ?_, ?_⟩
  · intro sem kw hs hk r hr
    rw [hybridMerge_eq sem kw hs hk] at hr
    rcases List.mem_append.1 hr with hr | hr
    · obtain ⟨sw, hsw, hswr⟩ := List.mem_map.1 hr
      obtain ⟨s_, hs_, hs_sw⟩ := List.mem_map.1 hsw
      subst hs_sw
      rw [mergeLookup] at hswr
      cases hfind : kw.find? (fun k => decide (k.id = (semWeight s_).id)) with
      | some k =>
        rw [hfind] at hswr
        have hkmem := List.mem_of_find?_eq_some hfind
        have hkid : k.id = s_.id := by simpa using List.find?_some hfind
        right; right
        refine ⟨s_, hs_, k, hkmem, ?_, ?_, ?_⟩
        · rw [← hswr]; rfl
        · rw [← hswr]
          simpa using hkid
        · rw [← hswr]
          have heq : (combineInto (semWeight s_) k).finalScore =
              some (jsOr (some (s_.score * (7/10))) s_.score + k.score * (3/10)) := rfl
          rw [heq, jsOr_weighted s_.score (7/10) (by norm_num)]
      | none =>
        rw [hfind] at hswr
        left
        refine ⟨s_, hs_, ?_, ?_, ?_⟩
        · rw [← hswr]; rfl
        · intro k hkmem
          rw [← hswr]
          have hne := List.find?_eq_none.1 hfind k hkmem
          simpa using hne
        · rw [← hswr]; simp
    · obtain ⟨k, hkf, hkr⟩ := List.mem_map.1 hr
      have hkmem := List.mem_filter.1 hkf
      right; left
      refine ⟨k, hkmem.1, ?_, ?_, ?_⟩
      · rw [← hkr]; rfl
      · intro s_ hs_
        rw [← hkr]
        have hany : sem.any (fun s_ => decide (s_.id = k.id)) = false := by
          simpa using hkmem.2
        intro hcon
        have : sem.any (fun s_ => decide (s_.id = k.id)) = true :=
          List.any_eq_true.2 ⟨s_, hs_, by simpa using hcon⟩
        rw [this] at hany
        cases hany
      · rw [← hkr]; simp
  · intro env opts res h
    obtain ⟨kw, _, hres⟩ := hybridSearch_ok h
    rw [hres]
    have htot : ∀ a b : SearchResult,
        (decide (finalOrScore b ≤ finalOrScore a)) = true ∨
        (decide (finalOrScore a ≤ finalOrScore b)) = true := by
      intro a b
      rcases le_total (finalOrScore b) (finalOrScore a) with h' | h'
      · left; simpa using h'
      · right; simpa using h'
    have htr : ∀ a b c : SearchResult,
        decide (finalOrScore b ≤ finalOrScore a) = true →
        decide (finalOrScore c ≤ finalOrScore b) = true →
        decide (finalOrScore c ≤ finalOrScore a) = true := by
      intro a b c h1 h2
      simp only [decide_eq_true_eq] at h1 h2 ⊢
      exact h2.trans h1
    have hp := jsSort_pairwise htot htr (hybridMerge
      (match semanticSearch env opts with
       | .ok s => s
       | .error _ => []) kw)
    refine List.Pairwise.imp ?_ hp
    intro a b hab
    simpa using hab
  · rw [ev_hybrid]
    have h1 : (semWeight rawSemA).id = "semantic_0" := by decide
    have h2 : (semWeight rawSemA).finalScore = some ((63:ℚ)/100) := by
      rw [semWeight_finalScore, show rawSemA.score = (9:ℚ)/10 from rfl]
      norm_num
    have h3 : (kwWeight kwResB).id = "keyword_b.md" := by decide
    have h4 : (kwWeight kwResB).finalScore = some ((3:ℚ)/10) := by
      rw [kwWeight_finalScore, ev_ks]
      norm_num
    simp only [Except.map, List.map_cons, List.map_nil, h1, h2, h3, h4]

/-- C1 witness: the merge characterization applied to the concrete
single-result semantic and lexical lists of the scenario. -/
theorem c1_hybrid_weighting_witness :
    (([rawSemA].map (fun r => r.id)).Nodup ∧ ([kwResB].map (fun r => r.id)).Nodup) ∧
    (∀ r ∈ hybridMerge [rawSemA] [kwResB],
      (∃ s_ ∈ [rawSemA], s_.id = r.id ∧ (∀ k ∈ [kwResB], k.id ≠ r.id) ∧
        r.finalScore = some (s_.score * (7/10))) ∨
      (∃ k ∈ [kwResB], k.id = r.id ∧ (∀ s_ ∈ [rawSemA], s_.id ≠ r.id) ∧
        r.finalScore = some (k.score * (3/10))) ∨
      (∃ s_ ∈ [rawSemA], ∃ k ∈ [kwResB], s_.id = r.id ∧ k.id = r.id ∧
        r.finalScore = some (s_.score * (7/10) + k.score * (3/10)))) :=
  ⟨⟨by simp, by simp⟩,
    c1_hybrid_weighting.1 [rawSemA] [kwResB] (by simp) (by simp)⟩

/-- C2: a second search with identical options while a live cache entry
exists returns the results of that entry with the engine state untouched and
without consulting any provider (the outcome is the same under every
environment); once the entry has aged past the TTL the full pipeline
runs again; and a successful uncached search installs a cache entry that
a repeat call within the TTL returns verbatim. -/
theorem c2_cache_idempotence :
    (∀ (env env₂ : Env) (now : Nat) (st : EngineState) (opts : SearchOptions)
      (entry : CacheEntry),
      cacheGet st.searchCache (generateCacheKey opts) = some entry →
      now - entry.timestamp < cacheTimeout →
      search env now st opts = (.ok entry.results, st) ∧
      search env now st opts = search env₂ now st opts) ∧
    (∀ (env : Env) (now : Nat) (st : EngineState) (opts : SearchOptions)
      (entry : CacheEntry),
      cacheGet st.searchCache (generateCacheKey opts) = some entry →
      ¬(now - entry.timestamp < cacheTimeout) →
      search env now st opts = runSearch env now st opts) ∧
    (∀ (env env₂ : Env) (t₀ t₁ : Nat) (st st' : EngineState) (opts : SearchOptions)
      (r : List SearchResult),
      cacheGet st.searchCache (generateCacheKey opts) = none →
      search env t₀ st opts = (.ok r, st') →
      t₁ - t₀ < cacheTimeout →
      search env₂ t₁ st' opts = (.ok r, st')) := by
  refine ⟨?_, ?_, ?_⟩
  · intro env env₂ now st opts entry h1 h2
    constructor
    · rw [search, h1]
      dsimp only
      rw [if_pos h2]
    · rw [search, h1, search, h1]
      dsimp only
      rw [if_pos h2, if_pos h2]
  · intro env now st opts entry h1 h2
    rw [search, h1]
    dsimp only
    rw [if_neg h2]
  · intro env env₂ t₀ t₁ st st' opts r h0 hfirst hfresh
    have hrs : runSearch env t₀ st opts = (.ok r, st') := by
      rw [← hfirst, search, h0]
    rw [runSearch] at hrs
    cases hstrat : runStrategy env opts with
    | error e =>
      rw [hstrat] at hrs
      have := congrArg Prod.fst hrs
      simp at this
    | ok r0 =>
      rw [hstrat] at hrs
      dsimp only at hrs
      rw [Prod.mk.injEq] at hrs
      obtain ⟨hfst, hsnd⟩ := hrs
      have hr := Except.ok.inj hfst
      rw [search, ← hsnd]
      dsimp only
      rw [hr, cacheGet_set_self]
      dsimp only
      rw [if_pos hfresh]

/-- C2 witness: a concrete uncached search against `envA` at time 0
followed by an identical call at time 1000 against a different
environment returns the result list and state of the first call unchanged. -/
theorem c2_cache_idempotence_witness :
    cacheGet emptyState.searchCache (generateCacheKey optsA) = none ∧
    search envA 0 emptyState optsA = (.ok [semWeight rawSemA, kwWeight kwResB], stA) ∧
    (1000 : Nat) - 0 < cacheTimeout ∧
    search envB 1000 stA optsA = (.ok [semWeight rawSemA, kwWeight kwResB], stA) :=
  ⟨rfl, ev_search, by norm_num [cacheTimeout],
    c2_cache_idempotence.2.2 envA envB 0 1000 emptyState stA optsA
      [semWeight rawSemA, kwWeight kwResB] rfl ev_search
      (by norm_num [cacheTimeout])⟩

/-- C3: when the rerank provider answers, the reranked output consists
exactly of the reply pairs whose relevance reaches the threshold, each
blended as `rerankScore = relevanceScore` and
`finalScore = priorScore × 0.3 + relevanceScore × 0.7`, re-sorted
descending; every surviving result carries a rerank score at or above
the threshold; and a prior score of 0.5 with relevance 0.9 blends to
0.78. -/
theorem c3_rerank_blending :
    (∀ (env : Env) (query : String) (results : List SearchResult)
      (opts : SearchOptions) (resp : RerankResponse),
      env.voyageReady = true →
      results ≠ [] →
      env.rerankOnly query (results.map (fun r => r.content)) opts.maxResults =
        .ok (some resp) →
      (∀ item ∈ resp.data, item.index < results.length) →
      (rerankResults env query results opts).Perm
        ((resp.data.filter
          (fun item => decide (item.relevance_score ≥ opts.rerankThreshold))).map
          (fun item => rerankBlend (results.getD item.index defaultResult) item)) ∧
      (rerankResults env query results opts).Pairwise
        (fun a b => finalOrScore b ≤ finalOrScore a) ∧
      (∀ r ∈ rerankResults env query results opts,
        ∃ v, r.rerankScore = some v ∧ opts.rerankThreshold ≤ v)) ∧
    (∀ (original : SearchResult) (item : RerankItem),
      (rerankBlend original item).rerankScore = some item.relevance_score ∧
      (rerankBlend original item).finalScore =
        some (original.score * (3/10) + item.relevance_score * (7/10))) ∧
    ((rerankBlend { defaultResult with score := 1/2 }
      { index := 0, relevance_score := 9/10 }).finalScore = some ((39:ℚ)/50)) := by
  refine ⟨?_, ?_, ?_⟩
  · intro env query results opts resp hready hne hcall hidx
    have hout : rerankResults env query results opts =
        sortByFinalDesc ((resp.data.filter
          (fun item => decide (item.relevance_score ≥ opts.rerankThreshold))).map
          (fun item => rerankBlend (results.getD item.index defaultResult) item)) := by
      rw [rerankResults, hready]
      have hne' : results.isEmpty = false := by
        cases results with
        | nil => exact absurd rfl hne
        | cons a l => rfl
      rw [hne']
      dsimp only
      rw [hcall]
      dsimp only
      have hall : ((resp.data.filter
          (fun item => decide (item.relevance_score ≥ opts.rerankThreshold))).all
          (fun item => decide (item.index < results.length))) = true := by
        rw [List.all_eq_true]
        intro item hitem
        have := hidx item (List.mem_of_mem_filter hitem)
        simpa using this
      rw [hall]
      simp
    refine ⟨?_, ?_, ?_⟩
    · rw [hout]
      exact jsSort_perm _ _
    · rw [hout]
      have htot : ∀ a b : SearchResult,
          (decide (finalOrScore b ≤ finalOrScore a)) = true ∨
          (decide (finalOrScore a ≤ finalOrScore b)) = true := by
        intro a b
        rcases le_total (finalOrScore b) (finalOrScore a) with h' | h'
        · left; simpa using h'
        · right; simpa using h'
      have htr : ∀ a b c : SearchResult,
          decide (finalOrScore b ≤ finalOrScore a) = true →
          decide (finalOrScore c ≤ finalOrScore b) = true →
          decide (finalOrScore c ≤ finalOrScore a) = true := by
        intro a b c h1 h2
        simp only [decide_eq_true_eq] at h1 h2 ⊢
        exact h2.trans h1
      refine List.Pairwise.imp ?_ (jsSort_pairwise htot htr _)
      intro a b hab
      simpa using hab
    · intro r hr
      rw [hout] at hr
      obtain ⟨item, hitem, hblend⟩ := List.mem_map.1 (mem_jsSort.1 hr)
      have hthr : opts.rerankThreshold ≤ item.relevance_score := by
        have := (List.mem_filter.1 hitem).2
        simpa using this
      exact ⟨item.relevance_score, by rw [← hblend]; rfl, hthr⟩
  · intro original item
    exact ⟨rfl, rfl⟩
  · rw [rerankBlend]
    dsimp only
    norm_num

/-- C3 witness: the rerank characterization applied to a concrete
two-candidate list where the reply scores 0.9 and 0.2 against a 0.5
threshold. -/
theorem c3_rerank_blending_witness :
    envR.voyageReady = true ∧
    ([resX, resY] : List SearchResult) ≠ [] ∧
    envR.rerankOnly "q" ([resX, resY].map (fun r => r.content)) optsR.maxResults =
      .ok (some respR) ∧
    (∀ item ∈ respR.data, item.index < ([resX, resY] : List SearchResult).length) ∧
    (rerankResults envR "q" [resX, resY] optsR).Perm
      ((respR.data.filter
        (fun item => decide (item.relevance_score ≥ optsR.rerankThreshold))).map
        (fun item => rerankBlend ([resX, resY].getD item.index defaultResult) item)) :=
  ⟨rfl, by simp, rfl, by decide,
    (c3_rerank_blending.1 envR "q" [resX, resY] optsR respR rfl (by simp) rfl
      (by decide)).1⟩

/-- C4: evaluation of the failing input of the title-sort claim.  With
`sortBy = title` and ascending order requested, the comparator
negation is inverted for the title branch (the only branch written in
ascending style), so the input `[apple, banana]` comes back in
descending order `[banana, apple]` where the specification requires
ascending order. -/
theorem c4_title_sort_inverted :
    (sortResults [titled "apple", titled "banana"]
      { optsA with sortBy := SortBy.title, sortOrder := SortOrder.asc }).map
        (fun r => r.title) = ["banana", "apple"] := by
  have hlex : lexCompare "apple".data "banana".data = -1 := by decide
  have hcmp : sortComparison { optsA with sortBy := SortBy.title, sortOrder := SortOrder.asc }
      (titled "apple") (titled "banana") = ((-1 : Int) : ℚ) := by
    rw [sortComparison]
    dsimp only
    rw [show (titled "apple").title = "apple" from rfl,
      show (titled "banana").title = "banana" from rfl, hlex]
  have hle : (decide ((if ({ optsA with sortBy := SortBy.title, sortOrder := SortOrder.asc }
        : SearchOptions).sortOrder = SortOrder.desc
      then sortComparison { optsA with sortBy := SortBy.title, sortOrder := SortOrder.asc }
        (titled "apple") (titled "banana")
      else -sortComparison { optsA with sortBy := SortBy.title, sortOrder := SortOrder.asc }
        (titled "apple") (titled "banana")) ≤ 0)) = false := by
    rw [if_neg (by decide), hcmp]
    simp only [decide_eq_false_iff_not]
    push_cast
    norm_num
  simp only [sortResults, jsSort, List.foldl, insertBy, hle]
  simp [titled]

/-- C5 counterexample: the claim says a result with no path passes a
configured folder filter, but `applyFilters` drops it: the folder filter
returns `false` on a missing path. -/
theorem c5_folder_filter_cex :
    applyFilters [nodeResult] { optsA with folders := some ["notes"] } = [] := rfl

/-- C5 amended: the file-extension and date-range filters pass results
lacking the tested attribute (and a `.pdf` file is excluded by a `md`
allow-list), while both the tag filter and the folder filter exclude
results lacking the tested attribute. -/
theorem c5_filter_missing_data :
    (∀ (r : SearchResult) (opts : SearchOptions),
      opts.fileTypes ≠ [] → opts.dateRange = none → opts.tags = none →
      opts.folders = none → r.file = none →
      applyFilters [r] opts = [r]) ∧
    (∀ (r : SearchResult) (f : TFile) (opts : SearchOptions),
      opts.fileTypes = ["md"] → opts.dateRange = none → opts.tags = none →
      opts.folders = none → r.file = some f → f.extension = "pdf" →
      applyFilters [r] opts = []) ∧
    (∀ (r : SearchResult) (opts : SearchOptions) (dr : DateRange),
      opts.fileTypes = [] → opts.dateRange = some dr → opts.tags = none →
      opts.folders = none → r.metadata.modified = none →
      applyFilters [r] opts = [r]) ∧
    (∀ (r : SearchResult) (opts : SearchOptions) (ts : List String),
      opts.fileTypes = [] → opts.dateRange = none → opts.tags = some ts → ts ≠ [] →
      opts.folders = none → r.metadata.tags = none →
      applyFilters [r] opts = []) ∧
    (∀ (r : SearchResult) (opts : SearchOptions) (fs : List String),
      opts.fileTypes = [] → opts.dateRange = none → opts.tags = none →
      opts.folders = some fs → fs ≠ [] → r.metadata.path = none →
      applyFilters [r] opts = []) := by
  refine ⟨?_, ?_, ?_, ?_, ?_⟩
  · intro r opts h1 h2 h3 h4 h5
    have hlen : 0 < opts.fileTypes.length := List.length_pos.2 h1
    rw [applyFilters, h2, h3, h4]
    simp [List.filter_cons, h5, hlen]
  · intro r f opts h1 h2 h3 h4 h5 h6
    rw [applyFilters, h1, h2, h3, h4]
    rw [if_pos (by simp)]
    simp [List.filter_cons, h5, h6]
  · intro r opts dr h1 h2 h3 h4 h5
    rw [applyFilters, h1, h2, h3, h4]
    simp [List.filter_cons, h5]
  · intro r opts ts h1 h2 h3 h4 h5 h6
    have hlen : 0 < ts.length := List.length_pos.2 h4
    rw [applyFilters, h1, h2, h3, h5]
    simp [List.filter_cons, h6, hlen]
  · intro r opts fs h1 h2 h3 h4 h5 h6
    have hlen : 0 < fs.length := List.length_pos.2 h5
    rw [applyFilters, h1, h2, h3, h4]
    simp [List.filter_cons, h6, hlen]

/-- C5 witness: the amended filter behavior at concrete inputs — a
file-less result passes a configured `md` allow-list and a path-less
result is dropped by a configured folder filter. -/
theorem c5_filter_missing_data_witness :
    applyFilters [nodeResult] { optsA with fileTypes := ["md"] } = [nodeResult] ∧
    applyFilters [nodeResult] { optsA with folders := some ["notes"] } = [] :=
  ⟨c5_filter_missing_data.1 nodeResult { optsA with fileTypes := ["md"] }
      (by simp) rfl rfl rfl rfl,
    c5_filter_missing_data.2.2.2.2 nodeResult { optsA with folders := some ["notes"] }
      ["notes"] rfl rfl rfl rfl (by simp) rfl⟩

/-- C6: the search history is an append-at-front list truncated to the
100 most recent entries with no deduplication — adding an entry never
leaves more than 100, any arrival sequence from a fresh engine leaves
exactly the reversed sequence truncated to 100 (so 150 arrivals leave
exactly the 100 most recent, oldest evicted), a search call never grows
the history beyond that bound, and `getSearchHistory` returns the list
as stored. -/
theorem c6_history_bound :
    (∀ (h : List HistEntry) (e : HistEntry), (addToHistory h e).length ≤ 100) ∧
    (∀ es : List HistEntry, es.foldl addToHistory [] = es.reverse.take 100) ∧
    (∀ (env : Env) (now : Nat) (st : EngineState) (opts : SearchOptions),
      (search env now st opts).2.searchHistory.length ≤ max st.searchHistory.length 100) ∧
    (∀ es : List HistEntry, 150 ≤ es.length →
      (es.foldl addToHistory []).length = 100) ∧
    (∀ st : EngineState, getSearchHistory st = st.searchHistory) := by
  refine ⟨addToHistory_le, history_from_empty, search_history_le, ?_, fun _ => rfl⟩
  intro es hlen
  rw [history_from_empty, List.length_take, List.length_reverse]
  omega

/-- C6 witness: 150 arrivals from a fresh engine leave exactly 100
entries. -/
theorem c6_history_bound_witness :
    150 ≤ (List.replicate 150 ({ query := "q", timestamp := 0, resultCount := 1 } :
      HistEntry)).length ∧
    ((List.replicate 150 ({ query := "q", timestamp := 0, resultCount := 1 } :
      HistEntry)).foldl addToHistory []).length = 100 :=
  ⟨by simp, c6_history_bound.2.2.2.1 _ (by simp)⟩

/-- C7: with no ready text-generation provider, the `ai_enhanced`
strategy is exactly the `hybrid` strategy, and an uncached search with
`searchType = ai_enhanced` returns the same ranked list as one with
`searchType = hybrid` on otherwise identical options. -/
theorem c7_ai_enhanced_fallback :
    (∀ (env : Env) (opts : SearchOptions), env.vercelReady = false →
      aiEnhancedSearch env opts = hybridSearch env opts) ∧
    (∀ (env : Env) (now : Nat) (st : EngineState) (base : SearchOptions),
      env.vercelReady = false →
      cacheGet st.searchCache
        (generateCacheKey { base with searchType := SearchType.ai_enhanced }) = none →
      cacheGet st.searchCache
        (generateCacheKey { base with searchType := SearchType.hybrid }) = none →
      (search env now st { base with searchType := SearchType.ai_enhanced }).1 =
        (search env now st { base with searchType := SearchType.hybrid }).1) := by
  have hfall : ∀ (env : Env) (opts : SearchOptions), env.vercelReady = false →
      aiEnhancedSearch env opts = hybridSearch env opts := by
    intro env opts h
    rw [aiEnhancedSearch, h]
    simp
  refine ⟨hfall, ?_⟩
  intro env now st base h hc1 hc2
  rw [search, hc1, search, hc2]
  dsimp only
  rw [runSearch, runSearch]
  have hstrat : runStrategy env { base with searchType := SearchType.ai_enhanced } =
      runStrategy env { base with searchType := SearchType.hybrid } := by
    have h1 : runStrategy env { base with searchType := SearchType.ai_enhanced } =
        aiEnhancedSearch env { base with searchType := SearchType.ai_enhanced } := rfl
    have h2 : runStrategy env { base with searchType := SearchType.hybrid } =
        hybridSearch env { base with searchType := SearchType.hybrid } := rfl
    rw [h1, h2, hfall env _ h]
    exact rfl
  rw [hstrat]
  cases hs : runStrategy env { base with searchType := SearchType.hybrid } with
  | error e => rfl
  | ok r0 => rfl

/-- C7 witness: a concrete uncached `ai_enhanced` search against `envA`
(whose generation provider is not ready) returns the same list as the
`hybrid` search. -/
theorem c7_ai_enhanced_fallback_witness :
    envA.vercelReady = false ∧
    (search envA 0 emptyState { optsA with searchType := SearchType.ai_enhanced }).1 =
      (search envA 0 emptyState { optsA with searchType := SearchType.hybrid }).1 :=
  ⟨rfl, c7_ai_enhanced_fallback.2 envA 0 emptyState optsA rfl rfl rfl⟩

/-- C8: a semantic search with no embedding provider rejects with the
fixed error, and an uncached top-level search with
`searchType = semantic` surfaces that error with the state untouched;
inside a hybrid search a semantic failure is absorbed (the merge runs on
an empty semantic side) while a vault-enumeration failure of the lexical
side rejects both the keyword search and the hybrid search. -/
theorem c8_error_propagation :
    (∀ (env : Env) (opts : SearchOptions), env.embeddings = false →
      semanticSearch env opts = .error "Embeddings not available for semantic search") ∧
    (∀ (env : Env) (now : Nat) (st : EngineState) (opts : SearchOptions),
      env.embeddings = false → opts.searchType = SearchType.semantic →
      cacheGet st.searchCache (generateCacheKey opts) = none →
      search env now st opts =
        (.error "Embeddings not available for semantic search", st)) ∧
    (∀ (env : Env) (opts : SearchOptions) (e : String) (kw : List SearchResult),
      semanticSearch env opts = .error e → keywordSearch env opts = .ok kw →
      hybridSearch env opts = .ok (sortByFinalDesc (hybridMerge [] kw))) ∧
    (∀ (env : Env) (opts : SearchOptions) (e : String),
      env.getMarkdownFiles = .error e →
      keywordSearch env opts = .error e ∧ hybridSearch env opts = .error e) := by
  refine ⟨?_, ?_, ?_, ?_⟩
  · intro env opts h
    exact semanticSearch_no_embeddings opts h
  · intro env now st opts hemb htype hcache
    rw [search, hcache]
    dsimp only
    rw [runSearch]
    have hstrat : runStrategy env opts =
        .error "Embeddings not available for semantic search" := by
      rw [runStrategy, htype]
      exact semanticSearch_no_embeddings opts hemb
    rw [hstrat]
  · intro env opts e kw hsem hkw
    exact hybridSearch_sem_error opts hsem hkw
  · intro env opts e h
    exact ⟨keywordSearch_error opts h,
      hybridSearch_kw_error opts (keywordSearch_error opts h)⟩

/-- C8 witness: against `envNoEmb` (no embedding provider) a requested
semantic search errors even at the top level, but a hybrid search
returns the keyword-only list; against `envErr` (failing vault) the
hybrid search rejects with the vault error. -/
theorem c8_error_propagation_witness :
    envNoEmb.embeddings = false ∧
    search envNoEmb 0 emptyState { optsA with searchType := SearchType.semantic } =
      (.error "Embeddings not available for semantic search", emptyState) ∧
    hybridSearch envNoEmb optsA = .ok (sortByFinalDesc (hybridMerge [] [kwResB])) ∧
    keywordSearch envErr optsA = .error "vault unavailable" ∧
    hybridSearch envErr optsA = .error "vault unavailable" :=
  ⟨rfl,
    c8_error_propagation.2.1 envNoEmb 0 emptyState
      { optsA with searchType := SearchType.semantic } rfl rfl rfl,
    c8_error_propagation.2.2.1 envNoEmb optsA
      "Embeddings not available for semantic search" [kwResB] rfl rfl,
    (c8_error_propagation.2.2.2 envErr optsA "vault unavailable" rfl).1,
    (c8_error_propagation.2.2.2 envErr optsA "vault unavailable" rfl).2⟩

/-- C9 counterexample: after one executed hybrid search the history
records one search, yet the per-type breakdown still reports zero hybrid
searches — the `searchTypes` record does not reflect how often each
search type was used. -/
theorem c9_search_types_cex :
    (getSearchAnalytics (search envA 0 emptyState optsA).2).totalSearches = 1 ∧
    (getSearchAnalytics (search envA 0 emptyState optsA).2).searchTypes.hybrid = 0 := by
  rw [ev_search]
  exact ⟨rfl, rfl⟩

/-- C9 amended: `getSearchAnalytics` reports the history length as
`totalSearches`, the mean result count (0 for an empty history), at most
10 top queries, each carrying its exact frequency in the history, sorted
by descending frequency — while the `searchTypes` record is the constant
all-zero record, independent of the history. -/
theorem c9_analytics : ∀ st : EngineState,
    (getSearchAnalytics st).totalSearches = st.searchHistory.length ∧
    (getSearchAnalytics st).averageResults =
      (if st.searchHistory.length > 0 then
        (((st.searchHistory.map (fun s => s.resultCount)).sum : Nat) : ℚ) /
          (st.searchHistory.length : ℚ)
       else 0) ∧
    (getSearchAnalytics st).topQueries.length ≤ 10 ∧
    (∀ t ∈ (getSearchAnalytics st).topQueries,
      t.count = (st.searchHistory.filter (fun s => decide (s.query = t.query))).length) ∧
    (getSearchAnalytics st).topQueries.Pairwise (fun a b => b.count ≤ a.count) ∧
    (getSearchAnalytics st).searchTypes =
      { semantic := 0, keyword := 0, hybrid := 0, ai_enhanced := 0 } := by
  intro st
  refine ⟨rfl, ?_, ?_, ?_, ?_, rfl⟩
  · have hsum : (st.searchHistory.map (fun s => (s.resultCount : ℚ))).sum =
        (((st.searchHistory.map (fun s => s.resultCount)).sum : Nat) : ℚ) := by
      rw [Nat.cast_list_sum, List.map_map]
      rfl
    rw [getSearchAnalytics]
    dsimp only
    rw [hsum]
  · rw [getSearchAnalytics]
    dsimp only
    rw [List.length_take]
    exact min_le_left _ _
  · intro t ht
    rw [getSearchAnalytics] at ht
    dsimp only at ht
    have ht' := (List.take_sublist 10 _).subset ht
    obtain ⟨p, hp, hpt⟩ := List.mem_map.1 (mem_jsSort.1 ht')
    have hc := queryCount_counts st.searchHistory p hp
    rw [← hpt]
    dsimp only
    exact hc
  · rw [getSearchAnalytics]
    dsimp only
    have htot : ∀ a b : TopQuery,
        (decide (b.count ≤ a.count)) = true ∨ (decide (a.count ≤ b.count)) = true := by
      intro a b
      rcases le_total b.count a.count with h' | h'
      · left; simpa using h'
      · right; simpa using h'
    have htr : ∀ a b c : TopQuery,
        decide (b.count ≤ a.count) = true → decide (c.count ≤ b.count) = true →
        decide (c.count ≤ a.count) = true := by
      intro a b c h1 h2
      simp only [decide_eq_true_eq] at h1 h2 ⊢
      exact h2.trans h1
    have hp := jsSort_pairwise htot htr
      (((st.searchHistory.foldl (fun m s => bumpCount m s.query) []).map
        (fun p => ({ query := p.1, count := p.2 } : TopQuery))))
    refine List.Pairwise.sublist (List.take_sublist 10 _) ?_
    refine List.Pairwise.imp ?_ hp
    intro a b hab
    simpa using hab

/-- C9 witness: the amended analytics contract applied to a concrete
three-entry history with a repeated query. -/
theorem c9_analytics_witness :
    (getSearchAnalytics { searchHistory :=
      [{ query := "a", timestamp := 0, resultCount := 3 },
       { query := "b", timestamp := 1, resultCount := 5 },
       { query := "a", timestamp := 2, resultCount := 1 }], searchCache := [] }).totalSearches = 3 ∧
    (getSearchAnalytics { searchHistory :=
      [{ query := "a", timestamp := 0, resultCount := 3 },
       { query := "b", timestamp := 1, resultCount := 5 },
       { query := "a", timestamp := 2, resultCount := 1 }], searchCache := [] }).topQueries.length ≤ 10 ∧
    (getSearchAnalytics { searchHistory :=
      [{ query := "a", timestamp := 0, resultCount := 3 },
       { query := "b", timestamp := 1, resultCount := 5 },
       { query := "a", timestamp := 2, resultCount := 1 }], searchCache := [] }).searchTypes =
      { semantic := 0, keyword := 0, hybrid := 0, ai_enhanced := 0 } :=
  ⟨(c9_analytics _).1,
    (c9_analytics _).2.2.1,
    (c9_analytics _).2.2.2.2.2⟩

/-- C10: semantic result ids are `semantic_` followed by the neighbor
position (and therefore depend only on the result count, not on the
neighbors — they are not stable identifiers across calls), keyword
result ids are `keyword_` followed by the file path, the two shapes
never collide, and consequently in every hybrid search over a vault with
distinct paths the score-combining branch never runs: every merged
result has a final score of exactly 0.7 or 0.3 times its own score. -/
theorem c10_id_shapes :
    (∀ (env : Env) (opts : SearchOptions) (res : List SearchResult),
      semanticSearch env opts = .ok res →
      res.map (fun r => r.id) =
        (List.range res.length).map (fun i => "semantic_" ++ toString i)) ∧
    (∀ (env : Env) (opts : SearchOptions) (res : List SearchResult),
      keywordSearch env opts = .ok res →
      ∀ r ∈ res, ∃ f : TFile, r.id = "keyword_" ++ f.path) ∧
    (∀ (env₁ env₂ : Env) (opts₁ opts₂ : SearchOptions)
      (r₁ r₂ : List SearchResult),
      semanticSearch env₁ opts₁ = .ok r₁ → keywordSearch env₂ opts₂ = .ok r₂ →
      ∀ a ∈ r₁, ∀ b ∈ r₂, a.id ≠ b.id) ∧
    (∀ (env : Env) (opts : SearchOptions) (files : List TFile)
      (res : List SearchResult),
      env.getMarkdownFiles = .ok files →
      (files.map (fun f => f.path)).Nodup →
      hybridSearch env opts = .ok res →
      ∀ x ∈ res, x.finalScore = some (x.score * (7/10)) ∨
        x.finalScore = some (x.score * (3/10))) ∧
    (∀ (env₁ env₂ : Env) (opts₁ opts₂ : SearchOptions)
      (r₁ r₂ : List SearchResult),
      semanticSearch env₁ opts₁ = .ok r₁ → semanticSearch env₂ opts₂ = .ok r₂ →
      r₁.length = r₂.length →
      r₁.map (fun r => r.id) = r₂.map (fun r => r.id)) := by
  have hsem_ids : ∀ (env : Env) (opts : SearchOptions) (res : List SearchResult),
      semanticSearch env opts = .ok res →
      res.map (fun r => r.id) =
        (List.range res.length).map (fun i => "semantic_" ++ toString i) := by
    intro env opts res h
    exact semanticSearch_ids h
  have hkw_ids : ∀ (env : Env) (opts : SearchOptions) (res : List SearchResult),
      keywordSearch env opts = .ok res →
      ∀ r ∈ res, ∃ f : TFile, r.id = "keyword_" ++ f.path := by
    intro env opts res h r hr
    obtain ⟨f, hf, _, _⟩ := keywordSearch_mem h r hr
    exact ⟨f, hf⟩
  have hdisj : ∀ (env₁ env₂ : Env) (opts₁ opts₂ : SearchOptions)
      (r₁ r₂ : List SearchResult),
      semanticSearch env₁ opts₁ = .ok r₁ → keywordSearch env₂ opts₂ = .ok r₂ →
      ∀ a ∈ r₁, ∀ b ∈ r₂, a.id ≠ b.id := by
    intro env₁ env₂ opts₁ opts₂ r₁ r₂ h1 h2 a ha b hb
    have hida : a.id ∈ r₁.map (fun r => r.id) := List.mem_map_of_mem _ ha
    rw [hsem_ids env₁ opts₁ r₁ h1] at hida
    obtain ⟨i, _, hi⟩ := List.mem_map.1 hida
    obtain ⟨f, hf⟩ := hkw_ids env₂ opts₂ r₂ h2 b hb
    rw [← hi, hf]
    exact sem_kw_id_ne (toString i) f.path
  refine ⟨hsem_ids, hkw_ids, hdisj, ?_, ?_⟩
  · intro env opts files res hfiles hpaths hres x hx
    obtain ⟨kw, hkw, hres'⟩ := hybridSearch_ok hres
    rw [hres'] at hx
    have hx' := mem_jsSort.1 hx
    have hknodup := keywordSearch_nodup hfiles hpaths hkw
    cases hsem : semanticSearch env opts with
    | error e =>
      rw [hsem] at hx'
      exact hybridMerge_dichotomy [] kw (by simp) hknodup x hx'
    | ok sems =>
      rw [hsem] at hx'
      refine hybridMerge_dichotomy sems kw ?_ hknodup x hx'
      intro s_ hs_ k hk
      exact hdisj env env opts opts sems kw hsem hkw s_ hs_ k hk
  · intro env₁ env₂ opts₁ opts₂ r₁ r₂ h1 h2 hlen
    rw [semanticSearch_ids h1, semanticSearch_ids h2, hlen]

/-- C10 witness: the id shapes at the concrete environment — the
semantic id list is positional and the hybrid output carries only
0.7-weighted or 0.3-weighted final scores. -/
theorem c10_id_shapes_witness :
    semanticSearch envA optsA = .ok [rawSemA] ∧
    ([rawSemA].map (fun r => r.id) =
      (List.range ([rawSemA] : List SearchResult).length).map
        (fun i => "semantic_" ++ toString i)) :=
  ⟨ev_semantic, c10_id_shapes.1 envA optsA [rawSemA] ev_semantic⟩

end ES
